import Mathlib

/-!
Verification development for the manifest-server repository.

The Go sources are shallowly embedded: Go strings are lists of characters
(`GoStr`), JSON values decoded by `encoding/json` into `interface{}` are the
inductive `JVal` (numbers are rationals, covering both the `int64` and
`float64` cases of the decoders; a missing map key and an explicit JSON
`null` both behave as Go's nil interface and are treated as `JVal.null`),
and panics of failed type assertions are `Option.none`.  Machine integers
are modelled as unbounded `Int`/`Nat`: the slot counts, column counts and
client ids handled by this server stay far below the 64-bit bounds.
-/

/-- A Go string, as a list of characters.  Go compares strings bytewise;
for valid UTF-8 the bytewise order coincides with the code-point order used
here. -/
abbrev GoStr := List Char

/-- `strings.ToLower` (ASCII fragment, which is all the organizer tokens and
names compared in the sources use). -/
def goToLower (s : GoStr) : GoStr := s.map Char.toLower

/-- Whitespace test backing `strings.TrimSpace` (`unicode.IsSpace`, ASCII
fragment). -/
def goIsSpaceChar (c : Char) : Bool :=
  c = ' ' ∨ c = '\t' ∨ c = '\n' ∨ c = '\x0b' ∨ c = '\x0c' ∨ c = '\r'

/-- `strings.TrimSpace`: drop whitespace from both ends. -/
def trimSpace (s : GoStr) : GoStr :=
  (((s.dropWhile goIsSpaceChar).reverse.dropWhile goIsSpaceChar).reverse)

/-- `strings.LastIndexByte(s, c)`: index of the last occurrence of `c`,
`none` for Go's `-1`. -/
def lastIndexByte (c : Char) : GoStr → Option Nat
  | [] => none
  | x :: xs =>
    match lastIndexByte c xs with
    | some i => some (i + 1)
    | none => if x = c then some 0 else none

/-- `strings.HasPrefix`. -/
def goStartsWith : GoStr → GoStr → Bool
  | _, [] => true
  | [], _ :: _ => false
  | c :: cs, d :: ds => c = d ∧ goStartsWith cs ds

/-- JSON values as produced by `json.Unmarshal` into `interface{}`.
`null` also stands for a missing object key (both are Go's nil interface). -/
inductive JVal where
  | null
  | bool (b : Bool)
  | num (q : ℚ)
  | str (s : GoStr)
  | arr (elems : List JVal)
  | obj (fields : List (GoStr × JVal))

/-- Lookup in a JSON object (Go map access `m[k]`; unmarshalled JSON objects
have unique keys, so first-match lookup is faithful). -/
def objGet (fields : List (GoStr × JVal)) (k : GoStr) : Option JVal :=
  match fields with
  | [] => none
  | (k2, v) :: rest => if k2 = k then some v else objGet rest k

/-- Go map access `m[k]` yielding the nil interface (our `JVal.null`) for a
missing key. -/
def objField (fields : List (GoStr × JVal)) (k : GoStr) : JVal :=
  (objGet fields k).getD .null

/-- Type assertion `.(string)`; `none` models the panic / `ok = false`. -/
def asString : JVal → Option GoStr
  | .str s => some s
  | _ => none

/-- Type assertion `.([]interface{})`. -/
def asArr : JVal → Option (List JVal)
  | .arr xs => some xs
  | _ => none

/-- Type assertion `.(map[string]interface{})`. -/
def asObj : JVal → Option (List (GoStr × JVal))
  | .obj kvs => some kvs
  | _ => none

/-- `strconv`'s `lower(c) = c | ('x' - 'X')`. -/
def strconvLower (c : Char) : Char := Char.ofNat (c.toNat ||| 32)

/-- `strconv.ParseBool`: exactly twelve accepted forms. -/
def goParseBool (s : GoStr) : Option Bool :=
  if s = "1".toList ∨ s = "t".toList ∨ s = "T".toList ∨ s = "true".toList ∨
      s = "TRUE".toList ∨ s = "True".toList then
    some true
  else if s = "0".toList ∨ s = "f".toList ∨ s = "F".toList ∨ s = "false".toList ∨
      s = "FALSE".toList ∨ s = "False".toList then
    some false
  else
    none

/-- The state machine of `strconv`'s `underscoreOK` after sign and base-prefix
handling; `saw` is the previous character class ('^' beginning, '0' digit,
'_' underscore, '!' other). -/
def underscoreOKLoop (hex : Bool) : Char → GoStr → Bool
  | saw, [] => saw ≠ '_'
  | saw, c :: rest =>
    if ('0' ≤ c ∧ c ≤ '9') ∨ (hex ∧ 'a' ≤ strconvLower c ∧ strconvLower c ≤ 'f') then
      underscoreOKLoop hex '0' rest
    else if c = '_' then
      if saw ≠ '0' then false else underscoreOKLoop hex '_' rest
    else if saw = '_' then false
    else underscoreOKLoop hex '!' rest

/-- `strconv`'s `underscoreOK`: underscores must separate successive digits or
follow a base prefix. -/
def underscoreOK (s : GoStr) : Bool :=
  let s1 : GoStr :=
    match s with
    | c :: rest => if c = '-' ∨ c = '+' then rest else s
    | [] => s
  match s1 with
  | z :: b :: rest =>
    if z = '0' ∧ (strconvLower b = 'b' ∨ strconvLower b = 'o' ∨ strconvLower b = 'x') then
      underscoreOKLoop (strconvLower b = 'x') '0' rest
    else
      underscoreOKLoop false '^' s1
  | _ => underscoreOKLoop false '^' s1

/-- The digit decoding of `strconv.ParseUint`'s main loop. -/
def digitVal (c : Char) : Option Nat :=
  if '0' ≤ c ∧ c ≤ '9' then some (c.toNat - '0'.toNat)
  else if 'a' ≤ strconvLower c ∧ strconvLower c ≤ 'z' then
    some ((strconvLower c).toNat - 'a'.toNat + 10)
  else none

/-- `strconv.ParseUint`'s accumulation loop; returns the exact value and
whether an underscore was skipped.  (Go's in-loop overflow checks are
equivalent to the final range test made by `goParseUint64`, because the
accumulated value only grows.) -/
def parseUintDigits (base : Nat) (base0 : Bool) (sawU : Bool) (n : Nat) :
    GoStr → Option (Nat × Bool)
  | [] => some (n, sawU)
  | c :: rest =>
    if c = '_' ∧ base0 then parseUintDigits base base0 true n rest
    else
      match digitVal c with
      | none => none
      | some d =>
        if d ≥ base then none
        else parseUintDigits base base0 sawU (n * base + d) rest

/-- `strconv.ParseUint(s, 0, 64)`: base detection from the prefix, digit
loop, underscore validation, 64-bit range check. -/
def goParseUint64 (s : GoStr) : Option Nat :=
  match s with
  | [] => none
  | c0 :: rest0 =>
    let p : Nat × GoStr :=
      if c0 = '0' then
        match rest0 with
        | [] => (8, [])
        | b :: rest =>
          if rest ≠ [] ∧ strconvLower b = 'b' then (2, rest)
          else if rest ≠ [] ∧ strconvLower b = 'o' then (8, rest)
          else if rest ≠ [] ∧ strconvLower b = 'x' then (16, rest)
          else (8, b :: rest)
      else (10, c0 :: rest0)
    match parseUintDigits p.1 true false 0 p.2 with
    | none => none
    | some (n, sawU) =>
      if sawU ∧ ¬ underscoreOK s then none
      else if n > 2 ^ 64 - 1 then none
      else some n

/-- `strconv.ParseInt(s, 0, 64)`: sign handling around `ParseUint`, then the
signed 64-bit range check. -/
def goParseInt64 (s : GoStr) : Option Int :=
  match s with
  | [] => none
  | c :: rest =>
    let neg : Bool := c = '-'
    let s1 : GoStr := if c = '+' ∨ c = '-' then rest else s
    match goParseUint64 s1 with
    | none => none
    | some un =>
      if neg then
        if un > 2 ^ 63 then none else some (-(un : Int))
      else if un ≥ 2 ^ 63 then none
      else some (un : Int)

/-- Go's `int64(v)` conversion of an in-range `float64`: truncation toward
zero.  Computable form: T-division of numerator by denominator. -/
def ratTrunc (q : ℚ) : Int := Int.tdiv q.num (q.den : Int)

/-- `decodeBool` (decode.Bool): tolerant boolean coercion; the unused
field-name argument of the Go function is dropped.  The single `num` case
covers Go's `int64` (`v != 0`) and `float64` (`v != 0.0`) cases. -/
def decodeBool (v : JVal) : Bool :=
  match v with
  | .bool b => b
  | .str s =>
    match goParseBool s with
    | some x => x
    | none => false
  | .num q => decide (q ≠ 0)
  | _ => false

/-- `decodeInt` (decode.Int): tolerant integer coercion; the single `num`
case covers Go's `int64` (identity) and `float64` (truncation) cases. -/
def decodeInt (v : JVal) : Int :=
  match v with
  | .bool b => if b then 1 else 0
  | .str s =>
    match goParseInt64 s with
    | some x => x
    | none => 0
  | .num q => ratTrunc q
  | _ => 0

example : decodeInt (.str "123".toList) = 123 := by decide
example : decodeInt (.str "-0x10".toList) = -16 := by decide
example : decodeInt (.str "010".toList) = 8 := by decide
example : decodeInt (.str "1_0".toList) = 10 := by decide
example : decodeInt (.str "_10".toList) = 0 := by decide
example : decodeInt (.str "9223372036854775807".toList) = 9223372036854775807 := by decide
example : decodeInt (.str "9223372036854775808".toList) = 0 := by decide
example : decodeInt (.num (mkRat 7 2)) = 3 := by decide
example : decodeInt (.num (mkRat (-7) 2)) = -3 := by decide
example : decodeBool (.str "tRUE".toList) = false := by decide
example : decodeBool (.str "True".toList) = true := by decide
example : decodeBool (.num (-2)) = true := by decide

/-- The scalar fields of `burble.Jumper` (pkg/burble/model.go); the recursive
`GroupMembers` list lives in the `Jumper` inductive below. -/
structure JumperData where
  id : Int
  name : GoStr
  shortName : GoStr
  rigName : GoStr
  groupName : GoStr
  isInstructor : Bool
  isTandem : Bool
  isStudent : Bool
  isVideographer : Bool
  isOrganizer : Bool
  isTurning : Bool
  isPondSwoop : Bool
deriving DecidableEq

/-- `burble.Jumper`: scalar data plus the ordered `GroupMembers` list. -/
inductive Jumper where
  | node (jdata : JumperData) (groupMembers : List Jumper)

/- Structural equality of jumpers is decidable (this is what
`reflect.DeepEqual` compares on the dereferenced values). -/

mutual

def Jumper.decEq : (a b : Jumper) → Decidable (a = b)
  | .node d1 m1, .node d2 m2 =>
    if h1 : d1 = d2 then
      match Jumper.decEqList m1 m2 with
      | isTrue h2 => isTrue (by rw [h1, h2])
      | isFalse h2 => isFalse (by intro h; injection h; exact h2 (by assumption))
    else
      isFalse (by intro h; injection h; exact h1 (by assumption))

def Jumper.decEqList : (a b : List Jumper) → Decidable (a = b)
  | [], [] => isTrue rfl
  | [], _ :: _ => isFalse (by intro h; exact absurd h (by simp))
  | _ :: _, [] => isFalse (by intro h; exact absurd h (by simp))
  | a :: as, b :: bs =>
    match Jumper.decEq a b, Jumper.decEqList as bs with
    | isTrue h1, isTrue h2 => isTrue (by rw [h1, h2])
    | isFalse h1, _ => isFalse (by intro h; injection h; exact h1 (by assumption))
    | _, isFalse h2 => isFalse (by intro h; injection h; exact h2 (by assumption))

end

instance : DecidableEq Jumper := Jumper.decEq

def Jumper.jdataOf : Jumper → JumperData
  | .node d _ => d

def Jumper.membersOf : Jumper → List Jumper
  | .node _ ms => ms

def Jumper.nameOf (j : Jumper) : GoStr := j.jdataOf.name

def Jumper.shortNameOf (j : Jumper) : GoStr := j.jdataOf.shortName

def Jumper.groupNameOf (j : Jumper) : GoStr := j.jdataOf.groupName

def Jumper.isOrganizerOf (j : Jumper) : Bool := j.jdataOf.isOrganizer

def Jumper.isTurningOf (j : Jumper) : Bool := j.jdataOf.isTurning

/-- Update the scalar data of a jumper, keeping its group members. -/
def Jumper.mapData (j : Jumper) (f : JumperData → JumperData) : Jumper :=
  match j with
  | .node d ms => .node (f d) ms

/-- `burble.NewJumper` (pkg/burble/model.go): trim the names, strip a leading
"jm " tag, turn a "vs" short name into the Video flag. -/
def NewJumper (id : Int) (name shortName : GoStr) : Jumper :=
  let nm0 := trimSpace name
  let nm1 := if goStartsWith (goToLower nm0) "jm ".toList then trimSpace (nm0.drop 3) else nm0
  let sn0 := trimSpace shortName
  let isV : Bool := goToLower sn0 = "vs".toList
  let sn1 := if isV then "Video".toList else sn0
  .node
    { id := id, name := nm1, shortName := sn1, rigName := [], groupName := [],
      isInstructor := false, isTandem := false, isStudent := false,
      isVideographer := isV, isOrganizer := false, isTurning := false,
      isPondSwoop := false } []

/-- `Jumper.AddGroupMember`: append the member; a member of a tandem or
student leader becomes an instructor unless it is a videographer. -/
def AddGroupMember (j member : Jumper) : Jumper :=
  let m2 :=
    if (j.jdataOf.isTandem ∨ j.jdataOf.isStudent) ∧ ¬ member.jdataOf.isVideographer then
      member.mapData (fun d => { d with isInstructor := true })
    else member
  .node j.jdataOf (j.membersOf ++ [m2])

/-- Index of the last occurrence is inside the string. -/
theorem lastIndexByte_lt_length {c : Char} {s : GoStr} {x : Nat}
    (h : lastIndexByte c s = some x) : x < s.length := by
  induction s generalizing x with
  | nil => simp [lastIndexByte] at h
  | cons y ys ih =>
    simp only [lastIndexByte] at h
    cases h2 : lastIndexByte c ys with
    | some i =>
      rw [h2] at h
      cases h
      have := ih h2
      simp only [List.length_cons]
      omega
    | none =>
      rw [h2] at h
      by_cases hy : y = c
      · simp [hy] at h
        cases h
        simp
      · simp [hy] at h

/-- The loop of `parseGroupName`, with explicit fuel so that the kernel can
evaluate it; each strip shortens the string, so `s.length + 1` steps always
suffice. -/
def parseGroupNameFuel : Nat → GoStr → GoStr
  | 0, s => s
  | fuel + 1, s =>
    match lastIndexByte '-' s with
    | none => s
    | some x =>
      if (s.drop (x + 1)).all Char.isDigit then parseGroupNameFuel fuel (s.take x)
      else s

/-- `parseGroupName` (pkg/burble/controller.go): repeatedly strip a trailing
"-NN" group whose characters are all digits; a trailing group containing a
non-digit stops the stripping and returns the current string. -/
def parseGroupName (s : GoStr) : GoStr := parseGroupNameFuel (s.length + 1) s

example : parseGroupName "Smith-01".toList = "Smith".toList := by decide
example : parseGroupName "Smith-01-02".toList = "Smith".toList := by decide
example : parseGroupName "Smith-1a".toList = "Smith-1a".toList := by decide
example : parseGroupName "Smith".toList = "Smith".toList := by decide

/-- `jumperFromJSON` (pkg/burble/controller.go): build a jumper from one
member record.  `none` models the panics of the `name` / `jump` string type
assertions. -/
def jumperFromJSON (m : List (GoStr × JVal)) : Option Jumper :=
  match asString (objField m "name".toList) with
  | none => none
  | some name =>
    let id := decodeInt (objField m "id".toList)
    match asString (objField m "jump".toList) with
    | none => none
    | some jumpStr =>
      let shortName :=
        match asString (objField m "handycam_jump".toList) with
        | some s => if s ≠ [] then "Handycam".toList else jumpStr
        | none => jumpStr
      let j0 := NewJumper id name shortName
      let j1 :=
        match asString (objField m "group_number".toList) with
        | some gn => j0.mapData (fun d => { d with groupName := parseGroupName gn })
        | none => j0
      let j2 :=
        match asString (objField m "rig_name".toList) with
        | some rn =>
          if rn ≠ [] then j1.mapData (fun d => { d with rigName := rn })
          else
            match asString (objField m "rig_id".toList) with
            | some ri =>
              if ri ≠ [] ∧ ri ≠ "0".toList then j1.mapData (fun d => { d with rigName := ri })
              else j1
            | none => j1
        | none =>
          match asString (objField m "rig_id".toList) with
          | some ri =>
            if ri ≠ [] ∧ ri ≠ "0".toList then j1.mapData (fun d => { d with rigName := ri })
            else j1
          | none => j1
      some j2

/-- `burble.Load` (pkg/burble/model.go). -/
structure Load where
  id : Int
  aircraftName : GoStr
  isFueling : Bool
  isTurning : Bool
  isNoTime : Bool
  slotsAvailable : Int
  callMinutes : Int
  loadNumber : GoStr
  tandems : List Jumper
  students : List Jumper
  sportJumpers : List Jumper
deriving DecidableEq

/-- The comparison of `JumpersByName.Less`, made non-strict for sorting:
case-insensitive lexicographic order on the full name. -/
def jumperNameLe (a b : Jumper) : Prop := goToLower a.nameOf ≤ goToLower b.nameOf

instance : DecidableRel jumperNameLe :=
  fun a b => inferInstanceAs (Decidable (goToLower a.nameOf ≤ goToLower b.nameOf))

/-- `sort.Sort(JumpersByName(...))`: an ordered permutation.  (Go's sort is
unstable; this determinizes the order of jumpers with equal lowercased
names, which is otherwise unspecified.) -/
def sortJumpers (js : List Jumper) : List Jumper := js.insertionSort jumperNameLe

/-- Sort a leader's group members by name (line 286 of the controller). -/
def Jumper.sortMembers : Jumper → Jumper
  | .node d ms => .node d (sortJumpers ms)

/-- The cluster key of the organizer grouping: the (already suffix-stripped)
group name, or the jumper's own name when that is empty. -/
def clusterKeyOf (j : Jumper) : GoStr := if j.groupNameOf = [] then j.nameOf else j.groupNameOf

/-- Append a jumper to its cluster, keeping the first-appearance order of
clusters (a determinization of Go's randomized map iteration; every claim
proved below is order-independent). -/
def insertGrouped (m : List (GoStr × List Jumper)) (k : GoStr) (j : Jumper) :
    List (GoStr × List Jumper) :=
  match m with
  | [] => [(k, [j])]
  | (k2, v) :: rest => if k2 = k then (k2, v ++ [j]) :: rest else (k2, v) :: insertGrouped rest k j

/-- The `groupNames` map of the controller: sport jumpers clustered by key. -/
def buildGroupNames (js : List Jumper) : List (GoStr × List Jumper) :=
  js.foldl (fun m j => insertGrouped m (clusterKeyOf j) j) []

/-- Emission of one cluster (the `outerLoop` body): the first organizer, if
any, absorbs every other member (sorted by name); otherwise all members are
emitted individually. -/
def emitCluster (members : List Jumper) : List Jumper :=
  match members.find? (fun m => m.isOrganizerOf) with
  | some organizer =>
    let others := members.eraseIdx (members.findIdx (fun m => m.isOrganizerOf))
    [(others.foldl AddGroupMember organizer).sortMembers]
  | none => members

/-- Rebuild of `l.SportJumpers` from the cluster map. -/
def regroupSportJumpers (js : List Jumper) : List Jumper :=
  (buildGroupNames js).foldl (fun acc kv => acc ++ emitCluster kv.2) []

/-- Classification of a manifested group's primary jumper. -/
inductive JumperKind where
  | sport
  | student
  | tandem

/-- The member loop of one group: slot counting for every member (public
first, else private), group members added to the primary from index 1 on.
`none` models the member-record panics. -/
def processMembers (pj : Jumper) (pub priv : Int) (i : Nat) :
    List JVal → Option (Jumper × Int × Int)
  | [] => some (pj, pub, priv)
  | mraw :: rest =>
    match asObj mraw with
    | none => none
    | some md =>
      let pub2 : Int := if decodeBool (objField md "is_public".toList) then pub + 1 else pub
      let priv2 : Int :=
        if decodeBool (objField md "is_public".toList) then priv
        else if decodeBool (objField md "is_private".toList) then priv + 1
        else priv
      if i < 1 then processMembers pj pub2 priv2 (i + 1) rest
      else
        match jumperFromJSON md with
        | none => none
        | some mj => processMembers (AddGroupMember pj mj) pub2 priv2 (i + 1) rest

/-- One manifested group: primary jumper from the first member, organizer
detection, classification by the `type` string (an unknown type keeps the
jumper out of every list but its members are still counted), then the member
loop. -/
def processGroup (organizers : List GoStr) (rawGroup : JVal) :
    Option (Option (JumperKind × Jumper) × Int × Int) :=
  match asArr rawGroup with
  | none => none
  | some members =>
    match members with
    | [] => none
    | m0 :: _ =>
      match asObj m0 with
      | none => none
      | some md =>
        match jumperFromJSON md with
        | none => none
        | some pj0 =>
          let pj1 :=
            if organizers.contains (goToLower pj0.shortNameOf) then
              pj0.mapData (fun d => { d with isOrganizer := true })
            else pj0
          match asString (objField md "type".toList) with
          | none => none
          | some tp =>
            let kp : Option JumperKind × Jumper :=
              if tp = "Sport Jumper".toList then (some .sport, pj1)
              else if tp = "Student".toList then
                (some .student, pj1.mapData (fun d => { d with isStudent := true }))
              else if tp = "Tandem".toList then
                (some .tandem, pj1.mapData (fun d => { d with isTandem := true }))
              else (none, pj1)
            match processMembers kp.2 0 0 0 members with
            | none => none
            | some (pj2, pub, priv) => some (kp.1.map (fun k => (k, pj2)), pub, priv)

/-- The group loop of `Refresh`: classify each group's primary into the three
jumper lists and accumulate the public/private slot tallies. -/
def parseGroups (organizers : List GoStr) (tandems students sports : List Jumper)
    (pub priv : Int) : List JVal → Option (List Jumper × List Jumper × List Jumper × Int × Int)
  | [] => some (tandems, students, sports, pub, priv)
  | g :: rest =>
    match processGroup organizers g with
    | none => none
    | some (kp, p2, q2) =>
      match kp with
      | some (.tandem, j) => parseGroups organizers (tandems ++ [j]) students sports (pub + p2) (priv + q2) rest
      | some (.student, j) => parseGroups organizers tandems (students ++ [j]) sports (pub + p2) (priv + q2) rest
      | some (.sport, j) => parseGroups organizers tandems students (sports ++ [j]) (pub + p2) (priv + q2) rest
      | none => parseGroups organizers tandems students sports (pub + p2) (priv + q2) rest

/-- Aircraft-name derivation (controller lines 196-202): when the upstream
`aircraft_name` is blank, split the combined `name` field at its last
space. -/
def deriveAircraftName (an0 nm : GoStr) : GoStr :=
  if an0 = [] then
    match lastIndexByte ' ' nm with
    | some x => nm.take x
    | none => an0
  else an0

/-- The slot computation (controller lines 304-311): private slots count
against reserve slots, both clamped at zero. -/
def computeSlotsAvailable (maxSlots reserveSlots pub priv : Int) : Int :=
  let r1 := reserveSlots - priv
  let r2 := if r1 < 0 then 0 else r1
  let s1 := maxSlots - pub - priv - r2
  if s1 < 0 then 0 else s1

/-- The per-load body of `Controller.Refresh` (pkg/burble/controller.go,
lines 170-314).  `some none` models `continue` (a non-map entry or a
non-public load); `none` models a panic of a failed assertion, an
out-of-range slice, or an out-of-range member index. -/
def parseLoad (organizers : List GoStr) (raw : JVal) : Option (Option Load) :=
  match asObj raw with
  | none => some none
  | some loadData =>
    if (objGet loadData "is_public".toList).isSome ∧
        ¬ decodeBool (objField loadData "is_public".toList) then
      some none
    else
      match asString (objField loadData "aircraft_name".toList) with
      | none => none
      | some an0 =>
        match asString (objField loadData "name".toList) with
        | none => none
        | some nm =>
          let callMinutes := decodeInt (objField loadData "time_left".toList)
          let an := deriveAircraftName an0 nm
          if an.length + 1 > nm.length then none
          else
            match asArr (objField loadData "groups".toList) with
            | none => none
            | some groups =>
              match parseGroups organizers [] [] [] 0 0 groups with
              | none => none
              | some (tandems, students, sports, pub, priv) =>
                some (some
                  { id := decodeInt (objField loadData "id".toList),
                    aircraftName := an,
                    isFueling := decodeBool (objField loadData "is_fueling".toList),
                    isTurning := decodeBool (objField loadData "is_turning".toList),
                    isNoTime := decide (callMinutes ≥ 120),
                    slotsAvailable :=
                      computeSlotsAvailable
                        (decodeInt (objField loadData "max_slots".toList))
                        (decodeInt (objField loadData "reserve_slots".toList)) pub priv,
                    callMinutes := callMinutes,
                    loadNumber := trimSpace (nm.drop (an.length + 1)),
                    tandems := sortJumpers tandems,
                    students := sortJumpers students,
                    sportJumpers := sortJumpers (regroupSportJumpers sports) })

/- Cross-load turning detection (controller lines 316-326): every jumper of
the previous load marks every equally-named jumper of the next load, through
`ForEachJumper`, which visits each jumper and, recursively, its group
members. -/

mutual

def jumperNames : Jumper → List GoStr
  | .node d ms => d.name :: jumperNamesList ms

def jumperNamesList : List Jumper → List GoStr
  | [] => []
  | j :: js => jumperNames j ++ jumperNamesList js

end

/-- All names on a load, in `ForEachJumper` order. -/
def loadNames (l : Load) : List GoStr :=
  jumperNamesList l.tandems ++ jumperNamesList l.students ++ jumperNamesList l.sportJumpers

mutual

def markJumperName (n : GoStr) : Jumper → Jumper
  | .node d ms =>
    .node (if d.name = n then { d with isTurning := true } else d) (markJumperListName n ms)

def markJumperListName (n : GoStr) : List Jumper → List Jumper
  | [] => []
  | j :: js => markJumperName n j :: markJumperListName n js

end

/-- Set `IsTurning` on every jumper of the load named `n`. -/
def markLoadName (n : GoStr) (l : Load) : Load :=
  { l with
    tandems := markJumperListName n l.tandems,
    students := markJumperListName n l.students,
    sportJumpers := markJumperListName n l.sportJumpers }

/-- The inner double loop for one adjacent pair: each name of `prev` marks
the next load. -/
def markNextLoad (prev next : Load) : Load :=
  (loadNames prev).foldl (fun ld n => markLoadName n ld) next

mutual

/-- The outer loop over adjacent pairs; the already-marked load is the one
whose names mark its successor, exactly as the Go loop reads `loads[i]`
after iteration `i-1` may have marked it. -/
def markTurningLoads : List Load → List Load
  | [] => []
  | l :: rest => l :: markFollowing l rest

def markFollowing (prev : Load) : List Load → List Load
  | [] => []
  | next :: rest =>
    let next2 := markNextLoad prev next
    next2 :: markFollowing next2 rest

end

/-- The final selection loop of `Refresh` (lines 328-338): keep loads with
`CallMinutes` at least the configured minimum, stopping as soon as
`columnCount` many have been kept. -/
def selectLoads (columnCount : Nat) (minCall : Int) (acc : List Load) :
    List Load → List Load
  | [] => acc
  | l :: rest =>
    if minCall ≤ l.callMinutes then
      let acc2 := acc ++ [l]
      if acc2.length ≥ columnCount then acc2
      else selectLoads columnCount minCall acc2 rest
    else selectLoads columnCount minCall acc rest

/-- The load list loop: `some none` entries (skipped loads) disappear,
`none` (a panic) aborts the whole refresh. -/
def parseLoadList (organizers : List GoStr) : List JVal → Option (List Load)
  | [] => some []
  | raw :: rest =>
    match parseLoad organizers raw with
    | none => none
    | some none => parseLoadList organizers rest
    | some (some l) => (parseLoadList organizers rest).map (l :: ·)

/-- The number of load columns `Refresh` requests from the upstream service
(line 126): one more than the configured display columns. -/
def burbleRequestColumns (displayColumns : Nat) : Nat := displayColumns + 1

/-- The pure part of `Controller.Refresh` (pkg/burble/controller.go), from
the unmarshalled payload to `(columnCount, loads)`: extract the `loads`
array, parse each load, mark turning jumpers across adjacent loads, then
select the displayable loads. -/
def refreshBody (organizers : List GoStr) (displayColumns : Nat) (minCall : Int)
    (payload : JVal) : Option (Nat × List Load) :=
  match asObj payload with
  | none => none
  | some bd =>
    if (objGet bd "loads".toList).isNone then none
    else
      match asArr (objField bd "loads".toList) with
      | none => none
      | some sourceLoads =>
        let columnCount := burbleRequestColumns displayColumns - 1
        match parseLoadList organizers sourceLoads with
        | none => none
        | some loads =>
          some (columnCount, selectLoads columnCount minCall [] (markTurningLoads loads))

/-- The state retained by `burble.Controller` between refreshes. -/
structure BurbleState where
  columnCount : Nat
  loads : List Load
deriving DecidableEq

/-- One `Refresh` call against the stored state (lines 340-353): the new
result always replaces the state, and `changed` reports whether the column
count or the load list differs from the stored one by deep value equality
(`reflect.DeepEqual`). -/
def refreshStep (organizers : List GoStr) (displayColumns : Nat) (minCall : Int)
    (payload : JVal) (s : BurbleState) : Option (Bool × BurbleState) :=
  match refreshBody organizers displayColumns minCall payload with
  | none => none
  | some (cc, fl) =>
    some (decide (s.columnCount ≠ cc) || decide (s.loads ≠ fl), ⟨cc, fl⟩)

/- Update distributor (pkg/server/grpc.go).  The five snapshot sections are
abstract types with decidable (value) equality, standing for the proto
messages Status, Options, Jumprun, WindsAloft and Loads compared by
`proto.Equal`; `proto.Clone` is the identity under value semantics. -/

/-- `ManifestUpdate`: one optional value per snapshot section; `none` on the
wire means "unchanged since the last send". -/
structure ManifestUpdate (A B C D E : Type) where
  status : Option A
  options : Option B
  jumprun : Option C
  windsAloft : Option D
  loads : Option E
deriving DecidableEq

/-- `ManifestUpdate.diff` (grpc.go lines 364-382): null out each section that
equals the baseline's section, and report whether any section is left. -/
def ManifestUpdate.diff {A B C D E : Type} [DecidableEq A] [DecidableEq B]
    [DecidableEq C] [DecidableEq D] [DecidableEq E]
    (x y : ManifestUpdate A B C D E) : ManifestUpdate A B C D E × Bool :=
  let x2 : ManifestUpdate A B C D E :=
    { status := if x.status = y.status then none else x.status,
      options := if x.options = y.options then none else x.options,
      jumprun := if x.jumprun = y.jumprun then none else x.jumprun,
      windsAloft := if x.windsAloft = y.windsAloft then none else x.windsAloft,
      loads := if x.loads = y.loads then none else x.loads }
  (x2, decide (x2.status ≠ none) || decide (x2.options ≠ none) ||
    decide (x2.jumprun ≠ none) || decide (x2.windsAloft ≠ none) ||
    decide (x2.loads ≠ none))

/-- Whole-section replacement of the retained baseline by the non-null
sections of the diffed message (grpc.go lines 447-461). -/
def mergeBaseline {A B C D E : Type} (base m : ManifestUpdate A B C D E) :
    ManifestUpdate A B C D E :=
  { status := m.status.or base.status,
    options := m.options.or base.options,
    jumprun := m.jumprun.or base.jumprun,
    windsAloft := m.windsAloft.or base.windsAloft,
    loads := m.loads.or base.loads }

/-- The requests served by the `processUpdates` event loop.  A source
notification carries the freshly constructed update (`constructUpdate`
recomputes the implicated sections from the aggregate state, which is
outside this loop). -/
inductive DistEvent (A B C D E : Type) where
  | addClient
  | removeClient (id : Nat)
  | sourceUpdate (u : ManifestUpdate A B C D E)

/-- The state owned by the `processUpdates` actor: the id counter, the client
registry with each client's outbound queue (in send order), and the retained
baseline `lastUpdate`. -/
structure DistState (A B C D E : Type) where
  clientID : Nat
  clients : List (Nat × List (ManifestUpdate A B C D E))
  lastUpdate : ManifestUpdate A B C D E

/-- Registry lookup. -/
def lookupClient {A B C D E : Type}
    (clients : List (Nat × List (ManifestUpdate A B C D E))) (id : Nat) :
    Option (List (ManifestUpdate A B C D E)) :=
  match clients with
  | [] => none
  | (i, q) :: rest => if i = id then some q else lookupClient rest id

/-- One iteration of the `processUpdates` select loop (grpc.go lines
407-464). -/
def distStep {A B C D E : Type} [DecidableEq A] [DecidableEq B] [DecidableEq C]
    [DecidableEq D] [DecidableEq E] (s : DistState A B C D E) :
    DistEvent A B C D E → DistState A B C D E
  | .addClient =>
    { clientID := s.clientID + 1,
      clients := s.clients ++ [(s.clientID + 1, [s.lastUpdate])],
      lastUpdate := s.lastUpdate }
  | .removeClient id => { s with clients := s.clients.filter (fun c => c.1 ≠ id) }
  | .sourceUpdate u =>
    let du := ManifestUpdate.diff u s.lastUpdate
    if du.2 then
      { s with
        clients := s.clients.map (fun c => (c.1, c.2 ++ [du.1])),
        lastUpdate := mergeBaseline s.lastUpdate du.1 }
    else s

/-- The actor's initial state: no clients, the initial full baseline. -/
def initialDistState {A B C D E : Type} (base : ManifestUpdate A B C D E) :
    DistState A B C D E :=
  { clientID := 0, clients := [], lastUpdate := base }

/-- Run the event loop over a sequence of requests. -/
def distRun {A B C D E : Type} [DecidableEq A] [DecidableEq B] [DecidableEq C]
    [DecidableEq D] [DecidableEq E] (s : DistState A B C D E) :
    List (DistEvent A B C D E) → DistState A B C D E
  | [] => s
  | e :: es => distRun (distStep s e) es

/-- The client ids handed out along a run, in assignment order. -/
def assignedIds {A B C D E : Type} [DecidableEq A] [DecidableEq B] [DecidableEq C]
    [DecidableEq D] [DecidableEq E] (s : DistState A B C D E) :
    List (DistEvent A B C D E) → List Nat
  | [] => []
  | e :: es =>
    match e with
    | .addClient => (s.clientID + 1) :: assignedIds (distStep s e) es
    | _ => assignedIds (distStep s e) es

/- Sunrise/sunset poller (`Controller.runAtSunriseSunset`, core package).
Wall-clock instants are modelled by an absolute second count plus the
calendar fields the loop reads; the per-tick sunrise/sunset computation is
an input, constrained in the theorems exactly as the Go code constructs it
(same calendar date as the current time). -/

/-- A `time.Time` as used by the poller: absolute seconds and the calendar
fields read by the loop. -/
structure SSTime where
  abs : Int
  year : Int
  month : Int
  day : Int
  hour : Int
  minute : Int
deriving DecidableEq

/-- `t.Date()`. -/
def SSTime.dateOf (t : SSTime) : Int × Int × Int := (t.year, t.month, t.day)

/-- `(t.Hour(), t.Minute())`. -/
def SSTime.hmOf (t : SSTime) : Int × Int := (t.hour, t.minute)

/-- One poller tick's observations: the current time and the sunrise/sunset
instants computed for it. -/
structure SSObs where
  now : SSTime
  sunrise : SSTime
  sunset : SSTime
deriving DecidableEq

/-- The markers retained across ticks: `lastPre` is shared by the
pre-sunrise and pre-sunset branches. -/
structure SSState where
  lastPre : Int × Int
  lastSunrise : Int × Int × Int
  lastSunset : Int × Int × Int
deriving DecidableEq

/-- The initial markers (`{-1,-1}`, `{0,0,0}`, `{0,0,0}`). -/
def initialSSState : SSState := ⟨(-1, -1), (0, 0, 0), (0, 0, 0)⟩

/-- The notifications a tick can fire. -/
inductive SSEvent where
  | sunsetFired
  | preSunset
  | sunriseFired
  | preSunrise
deriving DecidableEq

/-- One iteration of the poller loop (part_002 lines 409-451): the sunset
chain, then the sunrise chain.  `now.Equal(x) || now.After(x)` is an
absolute-time comparison; `x.Sub(now).Hours() <= 1` is a 3600-second
bound. -/
def ssStep (s : SSState) (o : SSObs) : SSState × List SSEvent :=
  let p1 : SSState × List SSEvent :=
    if o.sunset.abs ≤ o.now.abs then
      if s.lastSunset ≠ o.sunset.dateOf then
        ({ s with lastSunset := o.sunset.dateOf }, [.sunsetFired])
      else (s, [])
    else if o.now.abs < o.sunset.abs ∧ o.sunset.abs - o.now.abs ≤ 3600 then
      if s.lastPre ≠ o.now.hmOf then
        ({ s with lastPre := o.now.hmOf }, [.preSunset])
      else (s, [])
    else (s, [])
  let s1 := p1.1
  let p2 : SSState × List SSEvent :=
    if o.sunrise.abs ≤ o.now.abs then
      if s1.lastSunrise ≠ o.sunrise.dateOf then
        ({ s1 with lastSunrise := o.sunrise.dateOf }, [.sunriseFired])
      else (s1, [])
    else if o.now.abs < o.sunrise.abs ∧ o.sunrise.abs - o.now.abs ≤ 3600 then
      if s1.lastPre ≠ o.now.hmOf then
        ({ s1 with lastPre := o.now.hmOf }, [.preSunrise])
      else (s1, [])
    else (s1, [])
  (p2.1, p1.2 ++ p2.2)

/-- Run the poller over a list of ticks. -/
def ssRun (s : SSState) : List SSObs → SSState
  | [] => s
  | o :: os => ssRun (ssStep s o).1 os

/-- The tick at index `k` (arbitrary default out of range). -/
def obsAt (trace : List SSObs) (k : Nat) : SSObs :=
  (trace.get? k).getD ⟨⟨0, 0, 0, 0, 0, 0⟩, ⟨0, 0, 0, 0, 0, 0⟩, ⟨0, 0, 0, 0, 0, 0⟩⟩

/-- The poller state before tick `k`. -/
def ssStateAt (trace : List SSObs) (k : Nat) : SSState :=
  ssRun initialSSState (trace.take k)

/-- Tick `k` fires event `e`. -/
def ssFires (trace : List SSObs) (k : Nat) (e : SSEvent) : Prop :=
  k < trace.length ∧ e ∈ (ssStep (ssStateAt trace k) (obsAt trace k)).2

instance (trace : List SSObs) (k : Nat) (e : SSEvent) : Decidable (ssFires trace k e) :=
  inferInstanceAs (Decidable (_ ∧ _))

/-- The public-slot tally of one group's member records, as counted by the
member loop (public first, else private). -/
def membersPublicCount : List JVal → Int
  | [] => 0
  | mraw :: rest =>
    (match asObj mraw with
     | none => 0
     | some md => if decodeBool (objField md "is_public".toList) then 1 else 0) +
      membersPublicCount rest

/-- The private-slot tally of one group's member records. -/
def membersPrivateCount : List JVal → Int
  | [] => 0
  | mraw :: rest =>
    (match asObj mraw with
     | none => 0
     | some md =>
       if decodeBool (objField md "is_public".toList) then 0
       else if decodeBool (objField md "is_private".toList) then 1
       else 0) +
      membersPrivateCount rest

/-- Public slots of a whole `groups` array. -/
def groupsPublicCount : List JVal → Int
  | [] => 0
  | g :: rest => membersPublicCount ((asArr g).getD []) + groupsPublicCount rest

/-- Private slots of a whole `groups` array. -/
def groupsPrivateCount : List JVal → Int
  | [] => 0
  | g :: rest => membersPrivateCount ((asArr g).getD []) + groupsPrivateCount rest

theorem processMembers_counts :
    ∀ (ms : List JVal) (pj : Jumper) (pub priv : Int) (i : Nat) (pj2 : Jumper)
      (pub2 priv2 : Int),
      processMembers pj pub priv i ms = some (pj2, pub2, priv2) →
      pub2 = pub + membersPublicCount ms ∧ priv2 = priv + membersPrivateCount ms := by
  intro ms
  induction ms with
  | nil =>
    intro pj pub priv i pj2 pub2 priv2 h
    simp only [processMembers, Option.some.injEq, Prod.mk.injEq] at h
    simp [membersPublicCount, membersPrivateCount, h.2.1, h.2.2]
  | cons mraw rest ih =>
    intro pj pub priv i pj2 pub2 priv2 h
    simp only [processMembers] at h
    cases hobj : asObj mraw with
    | none => rw [hobj] at h; exact absurd h (by simp)
    | some md =>
      simp only [hobj] at h
      simp only [membersPublicCount, membersPrivateCount, hobj]
      split_ifs at h ⊢
      all_goals first
        | (have hc := ih _ _ _ _ _ _ _ h; omega)
        | (cases hj : jumperFromJSON md with
           | none => simp only [hj] at h; exact absurd h (by simp)
           | some mj =>
             simp only [hj] at h
             have := ih _ _ _ _ _ _ _ h
             omega)

theorem processGroup_counts :
    ∀ (organizers : List GoStr) (g : JVal) (kp : Option (JumperKind × Jumper)) (p q : Int),
      processGroup organizers g = some (kp, p, q) →
      p = membersPublicCount ((asArr g).getD []) ∧
        q = membersPrivateCount ((asArr g).getD []) := by
  intro org g kp p q h
  simp only [processGroup] at h
  cases harr : asArr g with
  | none => rw [harr] at h; exact absurd h (by simp)
  | some members =>
    simp only [harr] at h
    cases members with
    | nil => exact absurd h (by simp)
    | cons m0 mrest =>
      cases hobj : asObj m0 with
      | none => simp only [hobj] at h; exact absurd h (by simp)
      | some md =>
        simp only [hobj] at h
        cases hj : jumperFromJSON md with
        | none => simp only [hj] at h; exact absurd h (by simp)
        | some pj0 =>
          simp only [hj] at h
          cases htp : asString (objField md "type".toList) with
          | none => simp only [htp] at h; exact absurd h (by simp)
          | some tp =>
            simp only [htp] at h
            split at h
            · exact absurd h (by simp)
            · rename_i pj2 pub priv heq
              simp only [Option.some.injEq, Prod.mk.injEq] at h
              obtain ⟨hkp, hp, hq⟩ := h
              have hc := processMembers_counts _ _ _ _ _ _ _ _ heq
              simp only [Option.getD_some]
              constructor <;> omega

theorem parseGroups_counts :
    ∀ (gs : List JVal) (organizers : List GoStr) (t s sp : List Jumper) (pub priv : Int)
      (t2 s2 sp2 : List Jumper) (pub2 priv2 : Int),
      parseGroups organizers t s sp pub priv gs = some (t2, s2, sp2, pub2, priv2) →
      pub2 = pub + groupsPublicCount gs ∧ priv2 = priv + groupsPrivateCount gs := by
  intro gs
  induction gs with
  | nil =>
    intro org t s sp pub priv t2 s2 sp2 pub2 priv2 h
    simp only [parseGroups, Option.some.injEq, Prod.mk.injEq] at h
    simp [groupsPublicCount, groupsPrivateCount, h.2.2.2.1, h.2.2.2.2]
  | cons g rest ih =>
    intro org t s sp pub priv t2 s2 sp2 pub2 priv2 h
    simp only [parseGroups] at h
    cases hg : processGroup org g with
    | none => simp only [hg] at h; exact absurd h (by simp)
    | some res =>
      obtain ⟨kp, p2, q2⟩ := res
      simp only [hg] at h
      have hc := processGroup_counts _ _ _ _ _ hg
      simp only [groupsPublicCount, groupsPrivateCount]
      rcases kp with _ | ⟨k, j⟩
      · have := ih _ _ _ _ _ _ _ _ _ _ _ h
        constructor <;> omega
      · cases k
        all_goals
          simp only at h
        all_goals
          have := ih _ _ _ _ _ _ _ _ _ _ _ h
        all_goals constructor <;> omega

/-- The slot formula as the specification states it:
`max 0 (maxSlots - publicSlots - privateSlots - max 0 (reserveSlots - privateSlots))`. -/
def availableSlotsSpec (maxSlots reserveSlots publicSlots privateSlots : Int) : Int :=
  max 0 (maxSlots - publicSlots - privateSlots - max 0 (reserveSlots - privateSlots))

theorem computeSlotsAvailable_eq_spec (a b c d : Int) :
    computeSlotsAvailable a b c d = availableSlotsSpec a b c d := by
  simp only [computeSlotsAvailable, availableSlotsSpec]
  split_ifs <;> omega

theorem computeSlotsAvailable_nonneg (a b c d : Int) :
    0 ≤ computeSlotsAvailable a b c d := by
  simp only [computeSlotsAvailable]
  split_ifs <;> omega

/-- Inversion of a successful `parseLoad`: how each field of the produced
load was computed. -/
theorem parseLoad_inv :
    ∀ (organizers : List GoStr) (raw : JVal) (l : Load),
      parseLoad organizers raw = some (some l) →
      ∃ loadData groups tandems students sports, ∃ pub priv : Int,
        asObj raw = some loadData ∧
        asArr (objField loadData "groups".toList) = some groups ∧
        parseGroups organizers [] [] [] 0 0 groups = some (tandems, students, sports, pub, priv) ∧
        l.callMinutes = decodeInt (objField loadData "time_left".toList) ∧
        l.isNoTime = decide (l.callMinutes ≥ 120) ∧
        l.slotsAvailable =
          computeSlotsAvailable (decodeInt (objField loadData "max_slots".toList))
            (decodeInt (objField loadData "reserve_slots".toList)) pub priv ∧
        l.tandems = sortJumpers tandems ∧
        l.students = sortJumpers students ∧
        l.sportJumpers = sortJumpers (regroupSportJumpers sports) := by
  intro org raw l h
  simp only [parseLoad] at h
  cases hobj : asObj raw with
  | none => rw [hobj] at h; exact absurd h (by simp)
  | some loadData =>
    simp only [hobj] at h
    split at h
    · exact absurd h (by simp)
    · cases han : asString (objField loadData "aircraft_name".toList) with
      | none => simp only [han] at h; exact absurd h (by simp)
      | some an0 =>
        simp only [han] at h
        cases hnm : asString (objField loadData "name".toList) with
        | none => simp only [hnm] at h; exact absurd h (by simp)
        | some nm =>
          simp only [hnm] at h
          split at h
          · exact absurd h (by simp)
          · cases hgr : asArr (objField loadData "groups".toList) with
            | none => simp only [hgr] at h; exact absurd h (by simp)
            | some groups =>
              simp only [hgr] at h
              cases hpg : parseGroups org [] [] [] 0 0 groups with
              | none => simp only [hpg] at h; exact absurd h (by simp)
              | some res =>
                obtain ⟨tandems, students, sports, pub, priv⟩ := res
                simp only [hpg, Option.some.injEq] at h
                refine ⟨loadData, groups, tandems, students, sports, pub, priv,
                  rfl, hgr, hpg, ?_⟩
                obtain rfl := h.symm
                simp

theorem markLoadName_slots (n : GoStr) (l : Load) :
    (markLoadName n l).slotsAvailable = l.slotsAvailable := rfl

theorem markNextLoad_slots (prev next : Load) :
    (markNextLoad prev next).slotsAvailable = next.slotsAvailable := by
  unfold markNextLoad
  generalize loadNames prev = ns
  induction ns generalizing next with
  | nil => rfl
  | cons n ns ih =>
    simp only [List.foldl_cons]
    rw [ih (markLoadName n next), markLoadName_slots]

theorem markFollowing_mem :
    ∀ (L : List Load) (prev l : Load), l ∈ markFollowing prev L →
      ∃ l0 ∈ L, l.slotsAvailable = l0.slotsAvailable := by
  intro L
  induction L with
  | nil => simp [markFollowing]
  | cons next rest ih =>
    intro prev l hl
    simp only [markFollowing, List.mem_cons] at hl
    rcases hl with rfl | hl
    · exact ⟨next, by simp, markNextLoad_slots _ _⟩
    · obtain ⟨l0, hl0, he⟩ := ih _ _ hl
      exact ⟨l0, by simp [hl0], he⟩

theorem markTurningLoads_mem :
    ∀ (L : List Load) (l : Load), l ∈ markTurningLoads L →
      ∃ l0 ∈ L, l.slotsAvailable = l0.slotsAvailable := by
  intro L l hl
  cases L with
  | nil => simp [markTurningLoads] at hl
  | cons a rest =>
    simp only [markTurningLoads, List.mem_cons] at hl
    rcases hl with rfl | hl
    · exact ⟨l, by simp, rfl⟩
    · obtain ⟨l0, hl0, he⟩ := markFollowing_mem _ _ _ hl
      exact ⟨l0, by simp [hl0], he⟩

theorem selectLoads_mem :
    ∀ (L : List Load) (cc : Nat) (mc : Int) (acc : List Load) (l : Load),
      l ∈ selectLoads cc mc acc L → l ∈ acc ∨ l ∈ L := by
  intro L
  induction L with
  | nil => intro cc mc acc l hl; simp only [selectLoads] at hl; exact Or.inl hl
  | cons a rest ih =>
    intro cc mc acc l hl
    simp only [selectLoads] at hl
    split_ifs at hl
    · simp only [List.mem_append, List.mem_singleton] at hl
      rcases hl with h1 | h1
      · exact Or.inl h1
      · exact Or.inr (by simp [h1])
    · rcases ih _ _ _ _ hl with h1 | h1
      · simp only [List.mem_append, List.mem_singleton] at h1
        rcases h1 with h2 | h2
        · exact Or.inl h2
        · exact Or.inr (by simp [h2])
      · exact Or.inr (by simp [h1])
    · rcases ih _ _ _ _ hl with h1 | h1
      · exact Or.inl h1
      · exact Or.inr (by simp [h1])

theorem parseLoadList_mem :
    ∀ (organizers : List GoStr) (js : List JVal) (loads : List Load),
      parseLoadList organizers js = some loads →
      ∀ l ∈ loads, ∃ raw ∈ js, parseLoad organizers raw = some (some l) := by
  intro org js
  induction js with
  | nil =>
    intro loads h l hl
    simp only [parseLoadList, Option.some.injEq] at h
    subst h
    simp at hl
  | cons raw rest ih =>
    intro loads h l hl
    simp only [parseLoadList] at h
    cases hp : parseLoad org raw with
    | none => rw [hp] at h; exact absurd h (by simp)
    | some o =>
      cases o with
      | none =>
        rw [hp] at h
        obtain ⟨raw2, hr, he⟩ := ih _ h l hl
        exact ⟨raw2, by simp [hr], he⟩
      | some l2 =>
        rw [hp] at h
        cases hrest : parseLoadList org rest with
        | none => rw [hrest] at h; exact absurd h (by simp)
        | some loads2 =>
          rw [hrest] at h
          simp only [Option.map_some', Option.some.injEq] at h
          subst h
          simp only [List.mem_cons] at hl
          rcases hl with rfl | hl
          · exact ⟨raw, by simp, hp⟩
          · obtain ⟨raw2, hr, he⟩ := ih _ hrest l hl
            exact ⟨raw2, by simp [hr], he⟩

/-- Inversion of a successful `refreshBody`. -/
theorem refreshBody_inv :
    ∀ (organizers : List GoStr) (displayColumns : Nat) (minCall : Int) (payload : JVal)
      (cc : Nat) (loads : List Load),
      refreshBody organizers displayColumns minCall payload = some (cc, loads) →
      cc = displayColumns ∧
        ∃ bd src parsed,
          asObj payload = some bd ∧
          asArr (objField bd "loads".toList) = some src ∧
          parseLoadList organizers src = some parsed ∧
          loads = selectLoads displayColumns minCall [] (markTurningLoads parsed) := by
  intro org dc mc payload cc loads h
  simp only [refreshBody] at h
  cases hobj : asObj payload with
  | none => rw [hobj] at h; exact absurd h (by simp)
  | some bd =>
    simp only [hobj] at h
    split_ifs at h
    cases harr : asArr (objField bd "loads".toList) with
    | none => simp only [harr] at h; exact absurd h (by simp)
    | some src =>
      simp only [harr] at h
      cases hpl : parseLoadList org src with
      | none => simp only [hpl] at h; exact absurd h (by simp)
      | some parsed =>
        simp only [hpl, burbleRequestColumns, Nat.add_sub_cancel, Option.some.injEq,
          Prod.mk.injEq] at h
        obtain ⟨rfl, rfl⟩ := h
        exact ⟨rfl, bd, src, parsed, rfl, harr, hpl, rfl⟩

/-- Claim C1: for every load parsed by `Refresh`, the published
`SlotsAvailable` equals
`max 0 (maxSlots - publicSlots - privateSlots - max 0 (reserveSlots - privateSlots))`
where `maxSlots`/`reserveSlots` are decoded from the load record and
`publicSlots`/`privateSlots` are counted from the member records; hence it is
never negative (also for every load published by a whole refresh), and on
`maxSlots=10, publicSlots=3, privateSlots=2, reserveSlots=4` it is `3`. -/
theorem claim_C1 :
    (∀ (organizers : List GoStr) (raw : JVal) (l : Load),
        parseLoad organizers raw = some (some l) →
        l.slotsAvailable =
          availableSlotsSpec
            (decodeInt (objField ((asObj raw).getD []) "max_slots".toList))
            (decodeInt (objField ((asObj raw).getD []) "reserve_slots".toList))
            (groupsPublicCount ((asArr (objField ((asObj raw).getD []) "groups".toList)).getD []))
            (groupsPrivateCount ((asArr (objField ((asObj raw).getD []) "groups".toList)).getD [])) ∧
          0 ≤ l.slotsAvailable) ∧
    (∀ (organizers : List GoStr) (displayColumns : Nat) (minCall : Int) (payload : JVal)
        (cc : Nat) (loads : List Load),
        refreshBody organizers displayColumns minCall payload = some (cc, loads) →
        ∀ l ∈ loads, 0 ≤ l.slotsAvailable) ∧
    availableSlotsSpec 10 4 3 2 = 3 := by
  have slots : ∀ (organizers : List GoStr) (raw : JVal) (l : Load),
      parseLoad organizers raw = some (some l) →
      l.slotsAvailable =
        availableSlotsSpec
          (decodeInt (objField ((asObj raw).getD []) "max_slots".toList))
          (decodeInt (objField ((asObj raw).getD []) "reserve_slots".toList))
          (groupsPublicCount ((asArr (objField ((asObj raw).getD []) "groups".toList)).getD []))
          (groupsPrivateCount ((asArr (objField ((asObj raw).getD []) "groups".toList)).getD [])) ∧
        0 ≤ l.slotsAvailable := by
    intro org raw l h
    obtain ⟨loadData, groups, tandems, students, sports, pub, priv, hobj, hgr, hpg,
      hcm, hnt, hsl, _⟩ := parseLoad_inv org raw l h
    have hc := parseGroups_counts groups org [] [] [] 0 0 tandems students sports pub priv hpg
    rw [hobj]
    simp only [Option.getD_some]
    rw [hgr]
    simp only [Option.getD_some]
    constructor
    · rw [hsl, computeSlotsAvailable_eq_spec]
      congr 1 <;> omega
    · rw [hsl]
      exact computeSlotsAvailable_nonneg _ _ _ _
  refine ⟨slots, ?_, by decide⟩
  intro org dc mc payload cc loads h l hl
  obtain ⟨rfl, bd, src, parsed, hobj, harr, hpl, rfl⟩ := refreshBody_inv org dc mc payload cc loads h
  rcases selectLoads_mem _ _ _ _ _ hl with h1 | h1
  · simp at h1
  · obtain ⟨l0, hl0, he⟩ := markTurningLoads_mem _ _ h1
    obtain ⟨raw, _, hp⟩ := parseLoadList_mem org src parsed hpl l0 hl0
    have := (slots org raw l0 hp).2
    omega

/-- Claim C10: for every load parsed by `Refresh`, the `IsNoTime` flag is set
iff the decoded `time_left` (`CallMinutes`) is at least 120, and the numeric
`CallMinutes` value is retained unmodified either way. -/
theorem claim_C10 :
    ∀ (organizers : List GoStr) (raw : JVal) (l : Load),
      parseLoad organizers raw = some (some l) →
      (l.isNoTime = true ↔ 120 ≤ l.callMinutes) ∧
      l.callMinutes = decodeInt (objField ((asObj raw).getD []) "time_left".toList) := by
  intro org raw l h
  obtain ⟨loadData, groups, tandems, students, sports, pub, priv, hobj, hgr, hpg,
    hcm, hnt, hsl, _⟩ := parseLoad_inv org raw l h
  rw [hobj]
  simp only [Option.getD_some]
  refine ⟨?_, hcm⟩
  rw [hnt]
  simp [ge_iff_le]

/-- A concrete upstream load record: `max_slots=10`, `reserve_slots=4`,
`time_left=130`, no member groups. -/
def wRawLoadA : JVal :=
  .obj [("id".toList, .str "7".toList),
        ("aircraft_name".toList, .str "Otter".toList),
        ("name".toList, .str "Otter 3".toList),
        ("time_left".toList, .num (mkRat 130 1)),
        ("max_slots".toList, .num (mkRat 10 1)),
        ("reserve_slots".toList, .num (mkRat 4 1)),
        ("groups".toList, .arr [])]

/-- The load `parseLoad` produces for `wRawLoadA`. -/
def wLoadA : Load :=
  { id := 7, aircraftName := "Otter".toList, isFueling := false, isTurning := false,
    isNoTime := true, slotsAvailable := 6, callMinutes := 130,
    loadNumber := "3".toList, tandems := [], students := [], sportJumpers := [] }

theorem claim_C1_witness :
    wLoadA.slotsAvailable =
      availableSlotsSpec
        (decodeInt (objField ((asObj wRawLoadA).getD []) "max_slots".toList))
        (decodeInt (objField ((asObj wRawLoadA).getD []) "reserve_slots".toList))
        (groupsPublicCount ((asArr (objField ((asObj wRawLoadA).getD []) "groups".toList)).getD []))
        (groupsPrivateCount
          ((asArr (objField ((asObj wRawLoadA).getD []) "groups".toList)).getD [])) ∧
      0 ≤ wLoadA.slotsAvailable :=
  claim_C1.1 [] wRawLoadA wLoadA (by decide)

theorem claim_C10_witness :
    (wLoadA.isNoTime = true ↔ 120 ≤ wLoadA.callMinutes) ∧
      wLoadA.callMinutes = decodeInt (objField ((asObj wRawLoadA).getD []) "time_left".toList) :=
  claim_C10 [] wRawLoadA wLoadA (by decide)

/-- Claim C7: a `Refresh` against the stored state always stores the new
result, reports `changed` iff the new column count or load list differs by
deep value equality from the stored ones, and a second `Refresh` of the
identical payload reports `changed = false` and leaves the state equal. -/
theorem claim_C7 :
    ∀ (organizers : List GoStr) (displayColumns : Nat) (minCall : Int) (payload : JVal)
      (s s1 : BurbleState) (b : Bool),
      refreshStep organizers displayColumns minCall payload s = some (b, s1) →
      refreshStep organizers displayColumns minCall payload s1 = some (false, s1) ∧
      (b = true ↔ s ≠ s1) := by
  intro org dc mc payload s s1 b h
  simp only [refreshStep] at h ⊢
  cases hb : refreshBody org dc mc payload with
  | none => rw [hb] at h; exact absurd h (by simp)
  | some p =>
    obtain ⟨cc, fl⟩ := p
    rw [hb] at h
    simp only [Option.some.injEq, Prod.mk.injEq] at h
    obtain ⟨hb2, hs⟩ := h
    subst hs
    subst hb2
    refine ⟨by simp, ?_⟩
    cases s with
    | mk scc sl =>
      simp only [Bool.or_eq_true, decide_eq_true_eq, ne_eq, BurbleState.mk.injEq]
      tauto

/-- A one-load upstream payload. -/
def wPayloadA : JVal := .obj [("loads".toList, .arr [wRawLoadA])]

theorem claim_C7_witness :
    refreshStep [] 1 0 wPayloadA ⟨1, [wLoadA]⟩ = some (false, ⟨1, [wLoadA]⟩) ∧
      (true = true ↔ (⟨0, []⟩ : BurbleState) ≠ ⟨1, [wLoadA]⟩) :=
  claim_C7 [] 1 0 wPayloadA ⟨0, []⟩ ⟨1, [wLoadA]⟩ true (by decide)

/-- `Option.or` written as a conditional. -/
theorem optionOr_if {α : Type} [DecidableEq α] (o b : Option α) :
    o.or b = if o = none then b else o := by
  cases o <;> simp

/-- Claim C5: diffing a freshly constructed update against the retained
baseline nulls exactly the value-equal sections, reports a change iff some
section is left non-null, fans the message out (appending it to every
client queue) only in that case, and then replaces exactly the non-null
sections in the baseline; two snapshots differing only in the winds-aloft
section produce a message with only that section populated. -/
theorem claim_C5 :
    ∀ {A B C D E : Type} [DecidableEq A] [DecidableEq B] [DecidableEq C]
      [DecidableEq D] [DecidableEq E]
      (s : DistState A B C D E) (u : ManifestUpdate A B C D E),
      (ManifestUpdate.diff u s.lastUpdate).1.status =
          (if u.status = s.lastUpdate.status then none else u.status) ∧
      (ManifestUpdate.diff u s.lastUpdate).1.options =
          (if u.options = s.lastUpdate.options then none else u.options) ∧
      (ManifestUpdate.diff u s.lastUpdate).1.jumprun =
          (if u.jumprun = s.lastUpdate.jumprun then none else u.jumprun) ∧
      (ManifestUpdate.diff u s.lastUpdate).1.windsAloft =
          (if u.windsAloft = s.lastUpdate.windsAloft then none else u.windsAloft) ∧
      (ManifestUpdate.diff u s.lastUpdate).1.loads =
          (if u.loads = s.lastUpdate.loads then none else u.loads) ∧
      ((ManifestUpdate.diff u s.lastUpdate).2 = true ↔
        ((ManifestUpdate.diff u s.lastUpdate).1.status ≠ none ∨
          (ManifestUpdate.diff u s.lastUpdate).1.options ≠ none ∨
          (ManifestUpdate.diff u s.lastUpdate).1.jumprun ≠ none ∨
          (ManifestUpdate.diff u s.lastUpdate).1.windsAloft ≠ none ∨
          (ManifestUpdate.diff u s.lastUpdate).1.loads ≠ none)) ∧
      ((ManifestUpdate.diff u s.lastUpdate).2 = false →
        distStep s (.sourceUpdate u) = s) ∧
      ((ManifestUpdate.diff u s.lastUpdate).2 = true →
        (distStep s (.sourceUpdate u)).clients =
            s.clients.map (fun c => (c.1, c.2 ++ [(ManifestUpdate.diff u s.lastUpdate).1])) ∧
        (distStep s (.sourceUpdate u)).lastUpdate.status =
            (if (ManifestUpdate.diff u s.lastUpdate).1.status = none then s.lastUpdate.status
             else (ManifestUpdate.diff u s.lastUpdate).1.status) ∧
        (distStep s (.sourceUpdate u)).lastUpdate.options =
            (if (ManifestUpdate.diff u s.lastUpdate).1.options = none then s.lastUpdate.options
             else (ManifestUpdate.diff u s.lastUpdate).1.options) ∧
        (distStep s (.sourceUpdate u)).lastUpdate.jumprun =
            (if (ManifestUpdate.diff u s.lastUpdate).1.jumprun = none then s.lastUpdate.jumprun
             else (ManifestUpdate.diff u s.lastUpdate).1.jumprun) ∧
        (distStep s (.sourceUpdate u)).lastUpdate.windsAloft =
            (if (ManifestUpdate.diff u s.lastUpdate).1.windsAloft = none then s.lastUpdate.windsAloft
             else (ManifestUpdate.diff u s.lastUpdate).1.windsAloft) ∧
        (distStep s (.sourceUpdate u)).lastUpdate.loads =
            (if (ManifestUpdate.diff u s.lastUpdate).1.loads = none then s.lastUpdate.loads
             else (ManifestUpdate.diff u s.lastUpdate).1.loads)) ∧
      (u.status = s.lastUpdate.status → u.options = s.lastUpdate.options →
        u.jumprun = s.lastUpdate.jumprun → u.loads = s.lastUpdate.loads →
        u.windsAloft ≠ s.lastUpdate.windsAloft → u.windsAloft ≠ none →
        (ManifestUpdate.diff u s.lastUpdate).1 =
            { status := none, options := none, jumprun := none,
              windsAloft := u.windsAloft, loads := none } ∧
          (ManifestUpdate.diff u s.lastUpdate).2 = true) := by
  intro A B C D E iA iB iC iD iE s u
  refine ⟨rfl, rfl, rfl, rfl, rfl, ?_, ?_, ?_, ?_⟩
  · simp only [ManifestUpdate.diff, Bool.or_eq_true, decide_eq_true_eq]
    tauto
  · intro h2
    simp [distStep, h2]
  · intro h2
    refine ⟨?_, ?_, ?_, ?_, ?_, ?_⟩
    all_goals simp [distStep, h2, mergeBaseline, optionOr_if]
  · intro h1 h2 h3 h4 h5 h6
    simp only [ManifestUpdate.diff, h1, h2, h3, h4, if_pos rfl, if_neg h5]
    constructor
    · rfl
    · simp [h6]

/-- A baseline populated in every section (ℕ stands for each proto
section). -/
def wBaseMU : ManifestUpdate Nat Nat Nat Nat Nat :=
  { status := some 1, options := some 2, jumprun := some 3,
    windsAloft := some 4, loads := some 5 }

/-- An update equal to `wBaseMU` except in the winds-aloft section. -/
def wWindsMU : ManifestUpdate Nat Nat Nat Nat Nat :=
  { status := some 1, options := some 2, jumprun := some 3,
    windsAloft := some 9, loads := some 5 }

theorem claim_C5_witness :
    (ManifestUpdate.diff wWindsMU (initialDistState wBaseMU).lastUpdate).1 =
        { status := none, options := none, jumprun := none,
          windsAloft := wWindsMU.windsAloft, loads := none } ∧
      (ManifestUpdate.diff wWindsMU (initialDistState wBaseMU).lastUpdate).2 = true :=
  (claim_C5 (initialDistState wBaseMU) wWindsMU).2.2.2.2.2.2.2.2
    (by decide) (by decide) (by decide) (by decide) (by decide) (by decide)

theorem lookupClient_append {A B C D E : Type}
    (xs ys : List (Nat × List (ManifestUpdate A B C D E))) (id : Nat) :
    lookupClient (xs ++ ys) id =
      match lookupClient xs id with
      | some q => some q
      | none => lookupClient ys id := by
  induction xs with
  | nil => simp [lookupClient]
  | cons c rest ih =>
    obtain ⟨i, q⟩ := c
    simp only [List.cons_append, lookupClient]
    split_ifs <;> simp [ih]

theorem lookupClient_filter {A B C D E : Type}
    (xs : List (Nat × List (ManifestUpdate A B C D E))) (rid id : Nat) :
    lookupClient (xs.filter (fun c => c.1 ≠ rid)) id =
      if id = rid then none else lookupClient xs id := by
  induction xs with
  | nil => simp [lookupClient]
  | cons c rest ih =>
    obtain ⟨i, q⟩ := c
    simp only [List.filter_cons, lookupClient]
    rcases eq_or_ne i rid with hir | hir <;> rcases eq_or_ne id rid with hid | hid <;>
      rcases eq_or_ne i id with hii | hii <;>
      simp_all [lookupClient]

theorem lookupClient_map_append {A B C D E : Type}
    (xs : List (Nat × List (ManifestUpdate A B C D E))) (id : Nat)
    (m : ManifestUpdate A B C D E) :
    lookupClient (xs.map (fun c => (c.1, c.2 ++ [m]))) id =
      (lookupClient xs id).map (fun q => q ++ [m]) := by
  induction xs with
  | nil => simp [lookupClient]
  | cons c rest ih =>
    obtain ⟨i, q⟩ := c
    simp only [List.map_cons, lookupClient]
    split_ifs <;> simp [ih]

theorem distStep_clientID_le {A B C D E : Type} [DecidableEq A] [DecidableEq B]
    [DecidableEq C] [DecidableEq D] [DecidableEq E]
    (s : DistState A B C D E) (e : DistEvent A B C D E) :
    s.clientID ≤ (distStep s e).clientID := by
  cases e with
  | addClient => simp [distStep]
  | removeClient id => simp [distStep]
  | sourceUpdate u =>
    simp only [distStep]
    split_ifs <;> simp

theorem assignedIds_gt {A B C D E : Type} [DecidableEq A] [DecidableEq B]
    [DecidableEq C] [DecidableEq D] [DecidableEq E] :
    ∀ (es : List (DistEvent A B C D E)) (s : DistState A B C D E) (i : Nat),
      i ∈ assignedIds s es → s.clientID < i := by
  intro es
  induction es with
  | nil => intro s i hi; simp [assignedIds] at hi
  | cons e rest ih =>
    intro s i hi
    cases e with
    | addClient =>
      simp only [assignedIds, List.mem_cons] at hi
      rcases hi with rfl | hi
      · omega
      · have h1 := ih _ _ hi
        have h2 : (distStep s DistEvent.addClient).clientID = s.clientID + 1 := rfl
        omega
    | removeClient id =>
      simp only [assignedIds] at hi
      have h1 := ih _ _ hi
      have h2 := distStep_clientID_le s (DistEvent.removeClient id)
      omega
    | sourceUpdate u =>
      simp only [assignedIds] at hi
      have h1 := ih _ _ hi
      have h2 := distStep_clientID_le s (DistEvent.sourceUpdate u)
      omega

theorem assignedIds_pairwise {A B C D E : Type} [DecidableEq A] [DecidableEq B]
    [DecidableEq C] [DecidableEq D] [DecidableEq E] :
    ∀ (es : List (DistEvent A B C D E)) (s : DistState A B C D E),
      (assignedIds s es).Pairwise (fun a b => a < b) := by
  intro es
  induction es with
  | nil => intro s; simp [assignedIds]
  | cons e rest ih =>
    intro s
    cases e with
    | addClient =>
      simp only [assignedIds]
      refine List.Pairwise.cons ?_ (ih _)
      intro i hi
      have h1 := assignedIds_gt rest (distStep s DistEvent.addClient) i hi
      have h2 : (distStep s DistEvent.addClient).clientID = s.clientID + 1 := rfl
      omega
    | removeClient id => exact ih _
    | sourceUpdate u => exact ih _

/-- Queues only shrink to nothing (client removal) or keep their first
element across one loop iteration. -/
theorem distStep_queue_head {A B C D E : Type} [DecidableEq A] [DecidableEq B]
    [DecidableEq C] [DecidableEq D] [DecidableEq E]
    (s : DistState A B C D E) (e : DistEvent A B C D E) (id : Nat)
    (q1 : List (ManifestUpdate A B C D E))
    (hq : lookupClient s.clients id = some q1) (hne : q1 ≠ []) :
    lookupClient (distStep s e).clients id = none ∨
      ∃ q2, lookupClient (distStep s e).clients id = some q2 ∧
        q2.head? = q1.head? ∧ q2 ≠ [] := by
  cases e with
  | addClient =>
    right
    refine ⟨q1, ?_, rfl, hne⟩
    simp only [distStep, lookupClient_append, hq]
  | removeClient rid =>
    by_cases hir : id = rid
    · left
      simp only [distStep]
      rw [lookupClient_filter]
      simp [hir]
    · right
      refine ⟨q1, ?_, rfl, hne⟩
      simp only [distStep]
      rw [lookupClient_filter]
      simp [hir, hq]
  | sourceUpdate u =>
    simp only [distStep]
    split_ifs with hch
    · right
      refine ⟨q1 ++ [(ManifestUpdate.diff u s.lastUpdate).1], ?_, ?_, by simp⟩
      · simp only [lookupClient_map_append, hq, Option.map_some']
      · cases q1 with
        | nil => exact absurd rfl hne
        | cons a rest => simp
    · right
      exact ⟨q1, hq, rfl, hne⟩

theorem distStep_none {A B C D E : Type} [DecidableEq A] [DecidableEq B]
    [DecidableEq C] [DecidableEq D] [DecidableEq E]
    (s : DistState A B C D E) (e : DistEvent A B C D E) (id : Nat)
    (hid : id ≤ s.clientID) (h : lookupClient s.clients id = none) :
    lookupClient (distStep s e).clients id = none := by
  cases e with
  | addClient =>
    simp only [distStep, lookupClient_append, h, lookupClient]
    have : ¬ (s.clientID + 1 = id) := by omega
    simp [this]
  | removeClient rid =>
    simp only [distStep]
    rw [lookupClient_filter]
    split_ifs <;> simp [h]
  | sourceUpdate u =>
    simp only [distStep]
    split_ifs with hch
    · simp only [lookupClient_map_append, h, Option.map_none']
    · exact h

theorem distRun_none {A B C D E : Type} [DecidableEq A] [DecidableEq B]
    [DecidableEq C] [DecidableEq D] [DecidableEq E] :
    ∀ (es : List (DistEvent A B C D E)) (s : DistState A B C D E) (id : Nat),
      id ≤ s.clientID → lookupClient s.clients id = none →
      lookupClient (distRun s es).clients id = none := by
  intro es
  induction es with
  | nil => intro s id _ h; exact h
  | cons e rest ih =>
    intro s id hid h
    exact ih (distStep s e) id (le_trans hid (distStep_clientID_le s e))
      (distStep_none s e id hid h)

theorem distRun_queue_head {A B C D E : Type} [DecidableEq A] [DecidableEq B]
    [DecidableEq C] [DecidableEq D] [DecidableEq E] :
    ∀ (es : List (DistEvent A B C D E)) (s : DistState A B C D E) (id : Nat)
      (q1 : List (ManifestUpdate A B C D E)),
      id ≤ s.clientID → lookupClient s.clients id = some q1 → q1 ≠ [] →
      lookupClient (distRun s es).clients id = none ∨
        ∃ q2, lookupClient (distRun s es).clients id = some q2 ∧
          q2.head? = q1.head? ∧ q2 ≠ [] := by
  intro es
  induction es with
  | nil => intro s id q1 _ hq hne; exact Or.inr ⟨q1, hq, rfl, hne⟩
  | cons e rest ih =>
    intro s id q1 hid hq hne
    have hid2 : id ≤ (distStep s e).clientID := le_trans hid (distStep_clientID_le s e)
    rcases distStep_queue_head s e id q1 hq hne with h1 | ⟨q2, h2, h3, h4⟩
    · exact Or.inl (distRun_none rest (distStep s e) id hid2 h1)
    · rcases ih (distStep s e) id q2 hid2 h2 h4 with h5 | ⟨q3, h5, h6, h7⟩
      · exact Or.inl h5
      · exact Or.inr ⟨q3, h5, h6.trans h3, h7⟩

theorem registered_le_step {A B C D E : Type} [DecidableEq A] [DecidableEq B]
    [DecidableEq C] [DecidableEq D] [DecidableEq E]
    (s : DistState A B C D E) (e : DistEvent A B C D E)
    (hreg : ∀ id q, lookupClient s.clients id = some q → id ≤ s.clientID) :
    ∀ id q, lookupClient (distStep s e).clients id = some q →
      id ≤ (distStep s e).clientID := by
  intro id q h
  cases e with
  | addClient =>
    simp only [distStep, lookupClient_append] at h ⊢
    cases hl : lookupClient s.clients id with
    | some q2 =>
      have := hreg id q2 hl
      omega
    | none =>
      rw [hl] at h
      simp only [lookupClient] at h
      by_cases h2 : s.clientID + 1 = id
      · omega
      · rw [if_neg h2] at h
        exact absurd h (by simp)
  | removeClient rid =>
    simp only [distStep] at h ⊢
    rw [lookupClient_filter] at h
    split_ifs at h with h2
    exact hreg id q h
  | sourceUpdate u =>
    have hcid : (distStep s (DistEvent.sourceUpdate u)).clientID = s.clientID := by
      simp only [distStep]
      split_ifs <;> rfl
    rw [hcid]
    revert h
    simp only [distStep]
    split_ifs with h2
    · intro h
      simp only [lookupClient_map_append] at h
      cases hl : lookupClient s.clients id with
      | some q2 => exact hreg id q2 hl
      | none => rw [hl] at h; exact absurd h (by simp)
    · intro h
      exact hreg id q h

theorem distRun_registered_le {A B C D E : Type} [DecidableEq A] [DecidableEq B]
    [DecidableEq C] [DecidableEq D] [DecidableEq E] :
    ∀ (es : List (DistEvent A B C D E)) (s : DistState A B C D E),
      (∀ id q, lookupClient s.clients id = some q → id ≤ s.clientID) →
      ∀ id q, lookupClient (distRun s es).clients id = some q →
        id ≤ (distRun s es).clientID := by
  intro es
  induction es with
  | nil => intro s h; exact h
  | cons e rest ih =>
    intro s h
    exact ih (distStep s e) (registered_le_step s e h)

theorem distRun_append {A B C D E : Type} [DecidableEq A] [DecidableEq B]
    [DecidableEq C] [DecidableEq D] [DecidableEq E] :
    ∀ (xs ys : List (DistEvent A B C D E)) (s : DistState A B C D E),
      distRun s (xs ++ ys) = distRun (distRun s xs) ys := by
  intro xs
  induction xs with
  | nil => intro ys s; rfl
  | cons e rest ih => intro ys s; simp only [List.cons_append, distRun]; exact ih ys _

/-- Claim C6: along any sequence of requests served by the
`processUpdates` loop, freshly assigned client ids strictly increase, and
the first message enqueued on a new client's queue is the retained baseline
at registration time — and it stays the queue's first message for as long as
the client remains registered. -/
theorem claim_C6 :
    ∀ {A B C D E : Type} [DecidableEq A] [DecidableEq B] [DecidableEq C]
      [DecidableEq D] [DecidableEq E]
      (base : ManifestUpdate A B C D E) (events : List (DistEvent A B C D E)),
      (assignedIds (initialDistState base) events).Pairwise (fun a b => a < b) ∧
      (∀ k, events[k]? = some DistEvent.addClient →
        lookupClient (distRun (initialDistState base) (events.take (k + 1))).clients
            ((distRun (initialDistState base) (events.take k)).clientID + 1) =
          some [(distRun (initialDistState base) (events.take k)).lastUpdate] ∧
        (∀ m q, k + 1 ≤ m →
          lookupClient (distRun (initialDistState base) (events.take m)).clients
              ((distRun (initialDistState base) (events.take k)).clientID + 1) = some q →
          q.head? = some (distRun (initialDistState base) (events.take k)).lastUpdate)) := by
  intro A B C D E iA iB iC iD iE base events
  refine ⟨assignedIds_pairwise events (initialDistState base), ?_⟩
  intro k hk
  have hreg : ∀ id q,
      lookupClient (distRun (initialDistState base) (events.take k)).clients id = some q →
      id ≤ (distRun (initialDistState base) (events.take k)).clientID := by
    refine distRun_registered_le (events.take k) (initialDistState base) ?_
    intro id q h
    simp [initialDistState, lookupClient] at h
  have htake : events.take (k + 1) = events.take k ++ [DistEvent.addClient] := by
    rw [List.take_succ, hk]
    rfl
  set s := distRun (initialDistState base) (events.take k) with hs
  have hstep : distRun (initialDistState base) (events.take (k + 1)) =
      distStep s DistEvent.addClient := by
    rw [htake, distRun_append]
    rfl
  have hlookup : lookupClient (distStep s DistEvent.addClient).clients (s.clientID + 1) =
      some [s.lastUpdate] := by
    simp only [distStep, lookupClient_append]
    cases hl : lookupClient s.clients (s.clientID + 1) with
    | some q2 =>
      have := hreg _ _ hl
      omega
    | none => simp [lookupClient]
  refine ⟨by rw [hstep]; exact hlookup, ?_⟩
  intro m q hm hq
  have htm : events.take m = events.take (k + 1) ++ (events.take m).drop (k + 1) := by
    have h1 : events.take (k + 1) = (events.take m).take (k + 1) := by
      rw [List.take_take]
      congr 1
      omega
    rw [h1, List.take_append_drop]
  rw [htm, distRun_append, hstep] at hq
  have hid2 : s.clientID + 1 ≤ (distStep s DistEvent.addClient).clientID := by
    simp [distStep]
  rcases distRun_queue_head ((events.take m).drop (k + 1)) (distStep s DistEvent.addClient)
      (s.clientID + 1) [s.lastUpdate] hid2 hlookup (by simp) with h1 | ⟨q2, h2, h3, h4⟩
  · rw [h1] at hq
    exact absurd hq (by simp)
  · rw [h2] at hq
    simp only [Option.some.injEq] at hq
    subst hq
    simpa using h3

theorem char_le_toNat {a b : Char} : a ≤ b ↔ a.toNat ≤ b.toNat := Iff.rfl

/-- Decimal value of a digit string. -/
def digitsVal (s : GoStr) : Nat :=
  s.foldl (fun n c => n * 10 + (c.toNat - '0'.toNat)) 0

/-- `ratTrunc` is truncation toward zero. -/
theorem ratTrunc_eq (q : ℚ) : ratTrunc q = if 0 ≤ q then ⌊q⌋ else ⌈q⌉ := by
  by_cases h : 0 ≤ q
  · rw [if_pos h, ratTrunc, Rat.floor_def]
    exact Int.tdiv_eq_ediv (Rat.num_nonneg.mpr h) (by positivity)
  · rw [if_neg h, ratTrunc]
    have h1 : q.num.tdiv q.den = -((-q.num).tdiv q.den) := by
      rw [Int.neg_tdiv, neg_neg]
    have h2 : (-q.num).tdiv q.den = (-q.num) / (q.den : Int) := by
      refine Int.tdiv_eq_ediv ?_ (by positivity)
      have : q.num < 0 := Rat.num_neg.mpr (lt_of_not_ge h)
      omega
    have h3 : ⌊-q⌋ = (-q).num / ((-q).den : Int) := Rat.floor_def
    have h5 : ⌈q⌉ = -⌊-q⌋ := by
      rw [Int.floor_neg]
      ring
    rw [h1, h2, h5, h3]
    simp [Rat.neg_den, Rat.neg_num]

theorem parseUintDigits_decimal :
    ∀ (ds : GoStr) (n : Nat), (∀ c ∈ ds, '0' ≤ c ∧ c ≤ '9') →
      parseUintDigits 10 true false n ds =
        some (ds.foldl (fun a c => a * 10 + (c.toNat - '0'.toNat)) n, false) := by
  intro ds
  induction ds with
  | nil => intro n _; rfl
  | cons c rest ih =>
    intro n hd
    obtain ⟨hc1, hc2⟩ := hd c (by simp)
    have hcv1 : 48 ≤ c.toNat := char_le_toNat.mp hc1
    have hcv2 : c.toNat ≤ 57 := char_le_toNat.mp hc2
    have e0 : ('0' : Char).toNat = 48 := rfl
    have eu : ('_' : Char).toNat = 95 := rfl
    have hne : ¬(c = '_' ∧ True) := by
      rintro ⟨rfl, -⟩
      omega
    have hdv : digitVal c = some (c.toNat - '0'.toNat) := by
      simp only [digitVal]
      rw [if_pos ⟨hc1, hc2⟩]
    have hdlt : c.toNat - '0'.toNat < 10 := by
      rw [e0]
      omega
    simp only [parseUintDigits, hdv]
    rw [if_neg hne, if_neg (not_le.mpr hdlt)]
    simp only [List.foldl_cons]
    exact ih _ (fun d hdm => hd d (by simp [hdm]))

/-- A nonempty all-digit string with no leading zero and value within the
signed 64-bit range parses to its decimal value. -/
theorem goParseInt64_decimal :
    ∀ (c : Char) (s : GoStr), '0' ≤ c → c ≤ '9' → c ≠ '0' →
      (∀ d ∈ s, '0' ≤ d ∧ d ≤ '9') → digitsVal (c :: s) ≤ 2 ^ 63 - 1 →
      goParseInt64 (c :: s) = some ((digitsVal (c :: s) : Int)) := by
  intro c s hc1 hc2 hc0 hs hrange
  have hcv1 : 48 ≤ c.toNat := char_le_toNat.mp hc1
  have hcv2 : c.toNat ≤ 57 := char_le_toNat.mp hc2
  have e0 : ('0' : Char).toNat = 48 := rfl
  have ep : ('+' : Char).toNat = 43 := rfl
  have em : ('-' : Char).toNat = 45 := rfl
  have hcp : ¬(c = '+' ∨ c = '-') := by
    rintro (rfl | rfl) <;> omega
  have hall : ∀ d ∈ c :: s, '0' ≤ d ∧ d ≤ '9' := by
    intro d hdm
    rcases List.mem_cons.mp hdm with rfl | hdm2
    · exact ⟨hc1, hc2⟩
    · exact hs d hdm2
  have he := parseUintDigits_decimal (c :: s) 0 hall
  have hu : goParseUint64 (c :: s) = some (digitsVal (c :: s)) := by
    simp only [goParseUint64, if_neg hc0, he]
    have h1 : ¬(false = true ∧ ¬underscoreOK (c :: s) = true) := by simp
    rw [if_neg h1, if_neg (by simp only [digitsVal] at hrange; omega)]
    simp [digitsVal]
  simp only [goParseInt64, if_neg hcp, hu]
  have hnegb : (decide (c = '-')) = false := by
    rw [decide_eq_false_iff_not]
    rintro rfl
    omega
  rw [hnegb]
  rw [if_neg (by simp)]
  rw [if_neg (by omega)]

/-- Claim C8 (amended): the tolerant boolean decoder returns native booleans
as-is, treats nonzero numbers as true, accepts exactly `strconv.ParseBool`'s
string forms ("1"/"t"/"T"/"TRUE"/"true"/"True", with the corresponding false
forms) — not arbitrary case mixtures — and yields false on anything else;
the tolerant integer decoder returns integers, truncates fractional numbers
toward zero, maps booleans to 1/0, parses numeric strings (in particular any
in-range decimal without leading zero evaluates to its decimal value), and
yields 0 otherwise.  Both are total functions: no input makes them fail. -/
theorem claim_C8 :
    (∀ b, decodeBool (.bool b) = b) ∧
    (∀ q : ℚ, decodeBool (.num q) = true ↔ q ≠ 0) ∧
    (∀ s, decodeBool (.str s) = (goParseBool s).getD false) ∧
    (∀ s, goParseBool s = some true ↔
      (s = "1".toList ∨ s = "t".toList ∨ s = "T".toList ∨ s = "true".toList ∨
        s = "TRUE".toList ∨ s = "True".toList)) ∧
    (decodeBool .null = false ∧ (∀ xs, decodeBool (.arr xs) = false) ∧
      (∀ kvs, decodeBool (.obj kvs) = false)) ∧
    (∀ b, decodeInt (.bool b) = if b then 1 else 0) ∧
    (∀ q, decodeInt (.num q) = ratTrunc q) ∧
    (∀ q : ℚ, ratTrunc q = if 0 ≤ q then ⌊q⌋ else ⌈q⌉) ∧
    (∀ s, decodeInt (.str s) = (goParseInt64 s).getD 0) ∧
    (∀ (c : Char) (s : GoStr), '0' ≤ c → c ≤ '9' → c ≠ '0' →
      (∀ d ∈ s, '0' ≤ d ∧ d ≤ '9') → digitsVal (c :: s) ≤ 2 ^ 63 - 1 →
      decodeInt (.str (c :: s)) = (digitsVal (c :: s) : Int)) ∧
    (decodeInt .null = 0 ∧ (∀ xs, decodeInt (.arr xs) = 0) ∧
      (∀ kvs, decodeInt (.obj kvs) = 0)) := by
  refine ⟨fun b => rfl, fun q => by simp [decodeBool], ?_, ?_, ⟨rfl, fun xs => rfl, fun kvs => rfl⟩,
    fun b => rfl, fun q => rfl, ratTrunc_eq, ?_, ?_, ⟨rfl, fun xs => rfl, fun kvs => rfl⟩⟩
  · intro s
    simp only [decodeBool]
    cases goParseBool s <;> rfl
  · intro s
    unfold goParseBool
    split_ifs with h1 h2 <;> simp_all
  · intro s
    simp only [decodeInt]
    cases goParseInt64 s <;> rfl
  · intro c s hc1 hc2 hc0 hs hrange
    simp only [decodeInt, goParseInt64_decimal c s hc1 hc2 hc0 hs hrange]

/-- The claimed case-insensitivity fails: "tRUE" is a case variant of the
accepted "true" but decodes to false. -/
theorem claim_C8_counterexample :
    decodeBool (.str "tRUE".toList) = false ∧
      decodeBool (.str "true".toList) = true ∧
      goToLower "tRUE".toList = goToLower "true".toList := by decide

theorem claim_C8_witness :
    decodeInt (.str ('1' :: "23".toList)) = ((digitsVal ('1' :: "23".toList) : Int)) :=
  claim_C8.2.2.2.2.2.2.2.2.2.1 '1' "23".toList (by decide) (by decide) (by decide)
    (by decide) (by decide)

theorem selectLoads_eq :
    ∀ (L : List Load) (cc : Nat) (mc : Int) (acc : List Load),
      acc.length < max cc 1 →
      selectLoads cc mc acc L =
        acc ++ (L.filter (fun l => mc ≤ l.callMinutes)).take (max cc 1 - acc.length) := by
  intro L
  induction L with
  | nil => intro cc mc acc _; simp [selectLoads]
  | cons l rest ih =>
    intro cc mc acc hacc
    simp only [selectLoads]
    by_cases hp : mc ≤ l.callMinutes
    · rw [if_pos hp]
      have hfc : (l :: rest).filter (fun x => decide (mc ≤ x.callMinutes)) =
          l :: rest.filter (fun x => decide (mc ≤ x.callMinutes)) := by
        simp [List.filter_cons, hp]
      by_cases hstop : (acc ++ [l]).length ≥ cc
      · rw [if_pos hstop]
        simp only [List.length_append, List.length_singleton] at hstop
        have hk : max cc 1 - acc.length = 1 := by omega
        rw [hfc, hk]
        simp
      · rw [if_neg hstop]
        simp only [List.length_append, List.length_singleton] at hstop
        have hlt : (acc ++ [l]).length < max cc 1 := by
          simp only [List.length_append, List.length_singleton]
          omega
        rw [ih cc mc (acc ++ [l]) hlt, hfc]
        have hk : max cc 1 - acc.length = (max cc 1 - (acc ++ [l]).length) + 1 := by
          simp only [List.length_append, List.length_singleton]
          omega
        rw [hk]
        simp [List.take_succ_cons]
    · rw [if_neg hp]
      have hfc : (l :: rest).filter (fun x => decide (mc ≤ x.callMinutes)) =
          rest.filter (fun x => decide (mc ≤ x.callMinutes)) := by
        simp [List.filter_cons, hp]
      rw [ih cc mc acc hacc, hfc]

/-- Claim C2 (amended): each refresh requests `displayColumns + 1` load
columns from upstream, and publishes, in upstream order, the first loads
whose `CallMinutes` is at least the configured minimum, truncated to
`max displayColumns 1` entries (the loop always keeps at least one).  When
every fetched load passes the filter (and at least one column is
configured), exactly the first `displayColumns` loads are published, so the
extra lookahead load is not visible; when earlier loads are filtered out,
the lookahead load can enter the published list. -/
theorem claim_C2 :
    ∀ (organizers : List GoStr) (displayColumns : Nat) (minCall : Int) (payload : JVal)
      (cc : Nat) (loads : List Load),
      refreshBody organizers displayColumns minCall payload = some (cc, loads) →
      burbleRequestColumns displayColumns = displayColumns + 1 ∧
      cc = displayColumns ∧
      ∃ bd src parsed,
        asObj payload = some bd ∧
        asArr (objField bd "loads".toList) = some src ∧
        parseLoadList organizers src = some parsed ∧
        loads = ((markTurningLoads parsed).filter (fun l => minCall ≤ l.callMinutes)).take
            (max displayColumns 1) ∧
        loads.Sublist (markTurningLoads parsed) ∧
        loads.length ≤ max displayColumns 1 ∧
        (∀ l ∈ loads, minCall ≤ l.callMinutes) ∧
        (1 ≤ displayColumns → (∀ l ∈ markTurningLoads parsed, minCall ≤ l.callMinutes) →
          loads = (markTurningLoads parsed).take displayColumns) := by
  intro org dc mc payload cc loads h
  obtain ⟨rfl, bd, src, parsed, hobj, harr, hpl, hsel⟩ := refreshBody_inv org dc mc payload cc loads h
  have hsel2 : loads =
      ((markTurningLoads parsed).filter (fun l => mc ≤ l.callMinutes)).take (max cc 1) := by
    rw [hsel, selectLoads_eq (markTurningLoads parsed) cc mc [] (by simp)]
    simp
  refine ⟨rfl, rfl, bd, src, parsed, hobj, harr, hpl, hsel2, ?_, ?_, ?_, ?_⟩
  · rw [hsel2]
    exact (List.take_sublist _ _).trans (List.filter_sublist _)
  · rw [hsel2]
    exact (List.length_take_le _ _).trans (by omega)
  · intro l hl
    rw [hsel2] at hl
    have := List.mem_filter.mp (List.mem_of_mem_take hl)
    simpa using this.2
  · intro hdc hall
    rw [hsel2, List.filter_eq_self.mpr (fun l hl => by simpa using hall l hl)]
    congr 1
    omega

/-- A stale first load: `time_left = -10`. -/
def cexRawLoad1 : JVal :=
  .obj [("id".toList, .str "11".toList),
        ("aircraft_name".toList, .str "Otter".toList),
        ("name".toList, .str "Otter 1".toList),
        ("time_left".toList, .num (mkRat (-10) 1)),
        ("groups".toList, .arr [])]

/-- A current load: `time_left = 5`. -/
def cexRawLoad2 : JVal :=
  .obj [("id".toList, .str "22".toList),
        ("aircraft_name".toList, .str "Otter".toList),
        ("name".toList, .str "Otter 2".toList),
        ("time_left".toList, .num (mkRat 5 1)),
        ("groups".toList, .arr [])]

/-- The lookahead (third fetched) load: `time_left = 20`. -/
def cexRawLoad3 : JVal :=
  .obj [("id".toList, .str "33".toList),
        ("aircraft_name".toList, .str "Otter".toList),
        ("name".toList, .str "Otter 3".toList),
        ("time_left".toList, .num (mkRat 20 1)),
        ("groups".toList, .arr [])]

/-- A three-load upstream batch, as fetched for `displayColumns = 2`. -/
def cexPayloadC2 : JVal := .obj [("loads".toList, .arr [cexRawLoad1, cexRawLoad2, cexRawLoad3])]

/-- With `displayColumns = 2` (three fetched columns) and the first load
below the call-minute minimum, the published list contains the lookahead
load (id 33): the lookahead is not "never part of the client-visible
output". -/
theorem claim_C2_counterexample :
    burbleRequestColumns 2 = 3 ∧
      (refreshBody [] 2 0 cexPayloadC2).map (fun r => r.2.map Load.id) = some [22, 33] := by
  decide

theorem claim_C2_witness :
    burbleRequestColumns 1 = 1 + 1 ∧
      1 = 1 ∧
      ∃ bd src parsed,
        asObj wPayloadA = some bd ∧
        asArr (objField bd "loads".toList) = some src ∧
        parseLoadList [] src = some parsed ∧
        [wLoadA] = ((markTurningLoads parsed).filter (fun l => (0 : Int) ≤ l.callMinutes)).take
            (max 1 1) ∧
        List.Sublist [wLoadA] (markTurningLoads parsed) ∧
        List.length [wLoadA] ≤ max 1 1 ∧
        (∀ l ∈ [wLoadA], (0 : Int) ≤ l.callMinutes) ∧
        (1 ≤ 1 → (∀ l ∈ markTurningLoads parsed, (0 : Int) ≤ l.callMinutes) →
          [wLoadA] = (markTurningLoads parsed).take 1) :=
  claim_C2 [] 1 0 wPayloadA 1 [wLoadA] (by decide)

/-- A small event trace: a client registers, a source update arrives, a
second client registers. -/
def wEvents : List (DistEvent Nat Nat Nat Nat Nat) :=
  [DistEvent.addClient, DistEvent.sourceUpdate wWindsMU, DistEvent.addClient]

theorem claim_C6_witness :
    (assignedIds (initialDistState wBaseMU) wEvents).Pairwise (fun a b => a < b) ∧
      lookupClient (distRun (initialDistState wBaseMU) (wEvents.take 1)).clients
          ((distRun (initialDistState wBaseMU) (wEvents.take 0)).clientID + 1) =
        some [(distRun (initialDistState wBaseMU) (wEvents.take 0)).lastUpdate] :=
  ⟨(claim_C6 wBaseMU wEvents).1, ((claim_C6 wBaseMU wEvents).2 0 rfl).1⟩

/- Characterization of the cross-load turning marking.  `turnedJumper ns`
states the marking effect denotationally: set `IsTurning` on every jumper
(including nested group members) whose name is in `ns`. -/

mutual

def turnedJumper (ns : List GoStr) : Jumper → Jumper
  | .node d ms =>
    .node (if ns.contains d.name then { d with isTurning := true } else d)
      (turnedJumperList ns ms)

def turnedJumperList (ns : List GoStr) : List Jumper → List Jumper
  | [] => []
  | j :: js => turnedJumper ns j :: turnedJumperList ns js

end

/-- Mark every jumper of the load whose name is in `ns`. -/
def turnedLoad (ns : List GoStr) (l : Load) : Load :=
  { l with
    tandems := turnedJumperList ns l.tandems,
    students := turnedJumperList ns l.students,
    sportJumpers := turnedJumperList ns l.sportJumpers }

mutual

theorem markJumperName_turned (n : GoStr) (ns : List GoStr) :
    (j : Jumper) → markJumperName n (turnedJumper ns j) = turnedJumper (ns ++ [n]) j
  | .node d ms => by
    simp only [turnedJumper, markJumperName, markJumperListName_turned n ns ms]
    by_cases hn : d.name = n
    · subst hn
      by_cases hc : d.name ∈ ns <;> simp [hc]
    · by_cases hc : d.name ∈ ns <;> simp [hc, hn]

theorem markJumperListName_turned (n : GoStr) (ns : List GoStr) :
    (l : List Jumper) →
      markJumperListName n (turnedJumperList ns l) = turnedJumperList (ns ++ [n]) l
  | [] => rfl
  | j :: js => by
    simp only [turnedJumperList, markJumperListName,
      markJumperName_turned n ns j, markJumperListName_turned n ns js]

end

theorem markLoadName_turned (n : GoStr) (ns : List GoStr) (l : Load) :
    markLoadName n (turnedLoad ns l) = turnedLoad (ns ++ [n]) l := by
  simp [markLoadName, turnedLoad, markJumperListName_turned]

theorem foldl_markLoadName_turned :
    ∀ (ms ns : List GoStr) (l : Load),
      ms.foldl (fun ld n => markLoadName n ld) (turnedLoad ns l) = turnedLoad (ns ++ ms) l := by
  intro ms
  induction ms with
  | nil => intro ns l; simp
  | cons n rest ih =>
    intro ns l
    simp only [List.foldl_cons]
    rw [markLoadName_turned, ih]
    simp

mutual

theorem turnedJumper_nil : (j : Jumper) → turnedJumper [] j = j
  | .node d ms => by simp [turnedJumper, turnedJumperList_nil ms]

theorem turnedJumperList_nil : (l : List Jumper) → turnedJumperList [] l = l
  | [] => rfl
  | j :: js => by
    simp only [turnedJumperList, turnedJumper_nil j, turnedJumperList_nil js]

end

theorem turnedLoad_nil (l : Load) : turnedLoad [] l = l := by
  simp [turnedLoad, turnedJumperList_nil]

theorem markNextLoad_turned (prev next : Load) :
    markNextLoad prev next = turnedLoad (loadNames prev) next := by
  unfold markNextLoad
  have h := foldl_markLoadName_turned (loadNames prev) [] next
  rw [turnedLoad_nil] at h
  simpa using h

mutual

theorem jumperNames_turned (ns : List GoStr) :
    (j : Jumper) → jumperNames (turnedJumper ns j) = jumperNames j
  | .node d ms => by
    simp only [turnedJumper, jumperNames, jumperNamesList_turned ns ms]
    cases hc : ns.contains d.name <;> simp [hc]

theorem jumperNamesList_turned (ns : List GoStr) :
    (l : List Jumper) → jumperNamesList (turnedJumperList ns l) = jumperNamesList l
  | [] => rfl
  | j :: js => by
    simp only [turnedJumperList, jumperNamesList,
      jumperNames_turned ns j, jumperNamesList_turned ns js]

end

theorem loadNames_turned (ns : List GoStr) (l : Load) :
    loadNames (turnedLoad ns l) = loadNames l := by
  simp [loadNames, turnedLoad, jumperNamesList_turned]

theorem markFollowing_congr :
    ∀ (L : List Load) (p q : Load), loadNames p = loadNames q →
      markFollowing p L = markFollowing q L := by
  intro L
  induction L with
  | nil => intro p q _; rfl
  | cons next rest _ =>
    intro p q h
    simp only [markFollowing]
    rw [markNextLoad_turned, markNextLoad_turned, h]

theorem markFollowing_cons (prev next : Load) (rest : List Load) :
    markFollowing prev (next :: rest) =
      turnedLoad (loadNames prev) next :: markFollowing next rest := by
  simp only [markFollowing]
  rw [markNextLoad_turned]
  rw [markFollowing_congr rest (turnedLoad (loadNames prev) next) next (loadNames_turned _ _)]

theorem markFollowing_length :
    ∀ (L : List Load) (prev : Load), (markFollowing prev L).length = L.length := by
  intro L
  induction L with
  | nil => intro _; rfl
  | cons next rest ih =>
    intro prev
    rw [markFollowing_cons]
    simp [ih]

theorem markFollowing_get :
    ∀ (L : List Load) (prev : Load) (i : Nat) (p next : Load),
      (prev :: L)[i]? = some p → L[i]? = some next →
      (markFollowing prev L)[i]? = some (turnedLoad (loadNames p) next) := by
  intro L
  induction L with
  | nil => intro prev i p next _ h2; simp at h2
  | cons n0 rest ih =>
    intro prev i p next h1 h2
    rw [markFollowing_cons]
    cases i with
    | zero =>
      simp only [List.getElem?_cons_zero, Option.some.injEq] at h1 h2
      subst h1
      subst h2
      simp
    | succ j =>
      simp only [List.getElem?_cons_succ] at h1 h2 ⊢
      exact ih n0 j p next h1 h2

/-- Claim C4 (amended): for each adjacent pair of loads in upstream order,
any jumper (including nested group members) on the NEXT load whose name
string equals some jumper name on the current load is marked turning — the
flag is set on the next load's copy of the jumper, not on the current
load's, which is the direction opposite to the claim as stated.  Matching
is by name string only, so two distinct jumpers sharing a name are treated
as a match.  The first load is never marked, and length and order are
preserved.  (The marking loop reads the already-marked load `i` when
processing the pair `(i, i+1)`, but marking does not change names, so the
names used are those of the original load `i`.) -/
theorem claim_C4 :
    ∀ (L : List Load),
      (markTurningLoads L).length = L.length ∧
      (markTurningLoads L)[0]? = L[0]? ∧
      (∀ i p next, L[i]? = some p → L[i + 1]? = some next →
        (markTurningLoads L)[i + 1]? = some (turnedLoad (loadNames p) next)) ∧
      (∀ ns d ms,
        turnedJumper ns (Jumper.node d ms) =
          Jumper.node (if ns.contains d.name then { d with isTurning := true } else d)
            (turnedJumperList ns ms)) := by
  intro L
  cases L with
  | nil =>
    refine ⟨rfl, rfl, ?_, ?_⟩
    · intro i p next h1 _
      simp at h1
    · intro ns d ms
      rfl
  | cons l rest =>
    refine ⟨?_, ?_, ?_, ?_⟩
    · simp [markTurningLoads, markFollowing_length]
    · simp [markTurningLoads]
    · intro i p next h1 h2
      simp only [markTurningLoads, List.getElem?_cons_succ]
      simp only [List.getElem?_cons_succ] at h2
      exact markFollowing_get rest l i p next h1 h2
    · intro ns d ms
      rfl

/-- A sport jumper named Alice (id 1) on the earlier load. -/
def aliceP : Jumper :=
  .node ⟨1, "Alice".toList, [], [], [], false, false, false, false, false, false, false⟩ []

/-- A different sport jumper (id 2) who shares the name Alice. -/
def aliceQ : Jumper :=
  .node ⟨2, "Alice".toList, [], [], [], false, false, false, false, false, false, false⟩ []

def cexLoadP : Load :=
  ⟨1, "Otter".toList, false, false, false, 0, 15, "1".toList, [], [], [aliceP]⟩

def cexLoadQ : Load :=
  ⟨2, "Otter".toList, false, false, false, 0, 35, "2".toList, [], [], [aliceQ]⟩

/-- Claim-side definition, following the words of the spec for C4: for each
adjacent pair, the jumper on the EARLIER load whose name appears on the
next load is marked turning. -/
def markStated : List Load → List Load
  | [] => []
  | [l] => [l]
  | l :: next :: rest => turnedLoad (loadNames next) l :: markStated (next :: rest)

/-- Two loads sharing the name Alice: the code marks the second (next)
load's Alice turning and leaves the first load's Alice unmarked, while the
claim as stated marks the first load's Alice. -/
theorem claim_C4_counterexample :
    markTurningLoads [cexLoadP, cexLoadQ] ≠ markStated [cexLoadP, cexLoadQ] ∧
      (markTurningLoads [cexLoadP, cexLoadQ]).map
          (fun l => l.sportJumpers.map Jumper.isTurningOf) = [[false], [true]] ∧
      (markStated [cexLoadP, cexLoadQ]).map
          (fun l => l.sportJumpers.map Jumper.isTurningOf) = [[true], [false]] := by
  decide

theorem claim_C4_witness :
    (markTurningLoads [cexLoadP, cexLoadQ])[0 + 1]? =
      some (turnedLoad (loadNames cexLoadP) cexLoadQ) :=
  (claim_C4 [cexLoadP, cexLoadQ]).2.2.1 0 cexLoadP cexLoadQ rfl rfl

theorem parseGroupNameFuel_congr :
    ∀ (f1 : Nat) (s : GoStr) (f2 : Nat), s.length < f1 → s.length < f2 →
      parseGroupNameFuel f1 s = parseGroupNameFuel f2 s := by
  intro f1
  induction f1 with
  | zero => intro s f2 h1 _; omega
  | succ n ih =>
    intro s f2 h1 h2
    cases f2 with
    | zero => omega
    | succ m =>
      cases hx : lastIndexByte '-' s with
      | none => simp only [parseGroupNameFuel, hx]
      | some x =>
        simp only [parseGroupNameFuel, hx]
        have hxl : x < s.length := lastIndexByte_lt_length hx
        by_cases hd : (s.drop (x + 1)).all Char.isDigit
        · rw [if_pos hd, if_pos hd]
          have hlt : (s.take x).length = x := by
            rw [List.length_take]
            omega
          exact ih (s.take x) m (by omega) (by omega)
        · rw [if_neg hd, if_neg hd]

theorem lastIndexByte_eq_none {c : Char} :
    ∀ (s : GoStr), (∀ x ∈ s, x ≠ c) → lastIndexByte c s = none := by
  intro s
  induction s with
  | nil => intro _; rfl
  | cons y ys ih =>
    intro h
    simp only [lastIndexByte]
    rw [ih (fun x hx => h x (by simp [hx]))]
    simp [h y (by simp)]

theorem lastIndexByte_append_marker (s ds : GoStr) (h : ∀ x ∈ ds, x ≠ '-') :
    lastIndexByte '-' (s ++ '-' :: ds) = some s.length := by
  induction s with
  | nil =>
    show (match lastIndexByte '-' ds with
      | some i => some (i + 1)
      | none => if '-' = '-' then some 0 else none) = some 0
    rw [lastIndexByte_eq_none ds h]
    simp
  | cons y ys ih =>
    show (match lastIndexByte '-' (ys ++ '-' :: ds) with
      | some i => some (i + 1)
      | none => if y = '-' then some 0 else none) = some (ys.length + 1)
    rw [ih]

theorem parseGroupName_strip (s ds : GoStr) (h : ds.all Char.isDigit = true) :
    parseGroupName (s ++ '-' :: ds) = parseGroupName s := by
  have hnd : ∀ x ∈ ds, x ≠ '-' := by
    intro x hx he
    have hdig := List.all_eq_true.mp h x hx
    rw [he] at hdig
    exact absurd hdig (by decide)
  have hlen : (s ++ '-' :: ds).length = s.length + ds.length + 1 := by
    simp [List.length_append]
    omega
  unfold parseGroupName
  rw [hlen]
  simp only [parseGroupNameFuel, lastIndexByte_append_marker s ds hnd]
  have hdrop : (s ++ '-' :: ds).drop (s.length + 1) = ds := by
    have h1 : (s ++ '-' :: ds).drop s.length = '-' :: ds := List.drop_left s ('-' :: ds)
    rw [← List.drop_drop, h1]
    rfl
  have htake : (s ++ '-' :: ds).take s.length = s := List.take_left s ('-' :: ds)
  rw [hdrop, htake]
  rw [if_pos h]
  exact parseGroupNameFuel_congr (s.length + ds.length + 1) s (s.length + 1) (by omega) (by omega)

theorem groupNameOf_mapData_rig (x : Jumper) (rn : GoStr) :
    (x.mapData (fun d => { d with rigName := rn })).groupNameOf = x.groupNameOf := by
  cases x
  rfl

theorem groupNameOf_mapData_group (x : Jumper) (g : GoStr) :
    (x.mapData (fun d => { d with groupName := g })).groupNameOf = g := by
  cases x
  rfl

theorem jumperFromJSON_groupName (m : List (GoStr × JVal)) (j : Jumper) (gn : GoStr)
    (h : jumperFromJSON m = some j)
    (hgn : asString (objField m "group_number".toList) = some gn) :
    j.groupNameOf = parseGroupName gn := by
  unfold jumperFromJSON at h
  cases hname : asString (objField m "name".toList) with
  | none => simp only [hname] at h; exact absurd h (by simp)
  | some name =>
    simp only [hname] at h
    cases hjump : asString (objField m "jump".toList) with
    | none => simp only [hjump] at h; exact absurd h (by simp)
    | some jumpStr =>
      simp only [hjump, hgn, Option.some.injEq] at h
      cases hrn : asString (objField m "rig_name".toList) with
      | some rn =>
        simp only [hrn] at h
        by_cases h1 : rn ≠ []
        · rw [if_pos h1] at h
          subst h
          rw [groupNameOf_mapData_rig, groupNameOf_mapData_group]
        · rw [if_neg h1] at h
          cases hri : asString (objField m "rig_id".toList) with
          | some ri =>
            simp only [hri] at h
            by_cases h2 : ri ≠ [] ∧ ri ≠ "0".toList
            · rw [if_pos h2] at h
              subst h
              rw [groupNameOf_mapData_rig, groupNameOf_mapData_group]
            · rw [if_neg h2] at h
              subst h
              rw [groupNameOf_mapData_group]
          | none =>
            simp only [hri] at h
            subst h
            rw [groupNameOf_mapData_group]
      | none =>
        simp only [hrn] at h
        cases hri : asString (objField m "rig_id".toList) with
        | some ri =>
          simp only [hri] at h
          by_cases h2 : ri ≠ [] ∧ ri ≠ "0".toList
          · rw [if_pos h2] at h
            subst h
            rw [groupNameOf_mapData_rig, groupNameOf_mapData_group]
          · rw [if_neg h2] at h
            subst h
            rw [groupNameOf_mapData_group]
        | none =>
          simp only [hri] at h
          subst h
          rw [groupNameOf_mapData_group]

theorem insertGrouped_keys :
    ∀ (m : List (GoStr × List Jumper)) (k : GoStr) (j : Jumper),
      (insertGrouped m k j).map Prod.fst =
        if k ∈ m.map Prod.fst then m.map Prod.fst else m.map Prod.fst ++ [k] := by
  intro m k j
  induction m with
  | nil => simp [insertGrouped]
  | cons kv rest ih =>
    obtain ⟨k2, v⟩ := kv
    simp only [insertGrouped]
    by_cases hk : k2 = k
    · subst hk
      simp
    · rw [if_neg hk]
      simp only [List.map_cons, ih]
      by_cases hm : k ∈ rest.map Prod.fst
      · rw [if_pos hm]
        rw [if_pos (by simp [hm])]
      · rw [if_neg hm]
        rw [if_neg (by simp [hm, Ne.symm hk])]
        simp

theorem insertGrouped_mem :
    ∀ (m : List (GoStr × List Jumper)) (k : GoStr) (j : Jumper) (f : GoStr → List Jumper),
      (m.map Prod.fst).Nodup →
      (∀ kv ∈ m, kv.2 = f kv.1) →
      (k ∉ m.map Prod.fst → f k = []) →
      ∀ kv ∈ insertGrouped m k j, kv.2 = f kv.1 ++ (if kv.1 = k then [j] else []) := by
  intro m
  induction m with
  | nil =>
    intro k j f _ _ habs kv hkv
    simp only [insertGrouped, List.mem_singleton] at hkv
    subst hkv
    simp [habs (by simp)]
  | cons kv0 rest ih =>
    intro k j f hnd hf habs kv hkv
    obtain ⟨k2, v⟩ := kv0
    simp only [insertGrouped] at hkv
    simp only [List.map_cons, List.nodup_cons] at hnd
    by_cases hk : k2 = k
    · subst hk
      rw [if_pos rfl] at hkv
      rcases List.mem_cons.mp hkv with rfl | hkv2
      · have h1 := hf (k2, v) (by simp)
        simp only at h1
        simp [h1]
      · have h1 := hf kv (by simp [hkv2])
        have hne : kv.1 ≠ k2 := by
          intro he
          have hmem : kv.1 ∈ rest.map Prod.fst := List.mem_map.mpr ⟨kv, hkv2, rfl⟩
          rw [he] at hmem
          exact hnd.1 hmem
        simp [h1, hne]
    · rw [if_neg hk] at hkv
      rcases List.mem_cons.mp hkv with rfl | hkv2
      · have h1 := hf (k2, v) (by simp)
        simp only at h1
        simp [h1, hk]
      · have hf2 : ∀ kv ∈ rest, kv.2 = f kv.1 := fun x hx => hf x (by simp [hx])
        have habs2 : k ∉ rest.map Prod.fst → f k = [] := by
          intro h2
          apply habs
          simp only [List.map_cons, List.mem_cons]
          rintro (he | hmem)
          · exact hk he.symm
          · exact h2 hmem
        exact ih k j f hnd.2 hf2 habs2 kv hkv2

theorem buildGroupNames_snoc (js : List Jumper) (j : Jumper) :
    buildGroupNames (js ++ [j]) =
      insertGrouped (buildGroupNames js) (clusterKeyOf j) j := by
  simp [buildGroupNames, List.foldl_append]

theorem buildGroupNames_spec :
    ∀ (js : List Jumper),
      ((buildGroupNames js).map Prod.fst).Nodup ∧
      (∀ kv ∈ buildGroupNames js,
        kv.2 = js.filter (fun x => decide (clusterKeyOf x = kv.1))) ∧
      (∀ x ∈ js, clusterKeyOf x ∈ (buildGroupNames js).map Prod.fst) := by
  intro js
  induction js using List.reverseRecOn with
  | nil => refine ⟨by simp [buildGroupNames], by simp [buildGroupNames], by simp⟩
  | append_singleton js j ih =>
    obtain ⟨hnd, hfib, hcompl⟩ := ih
    rw [buildGroupNames_snoc]
    refine ⟨?_, ?_, ?_⟩
    · rw [insertGrouped_keys]
      by_cases hm : clusterKeyOf j ∈ (buildGroupNames js).map Prod.fst
      · rw [if_pos hm]
        exact hnd
      · rw [if_neg hm]
        simp [List.nodup_append, hnd, hm]
    · have habs : clusterKeyOf j ∉ (buildGroupNames js).map Prod.fst →
          js.filter (fun x => decide (clusterKeyOf x = clusterKeyOf j)) = [] := by
        intro hm
        rw [List.filter_eq_nil_iff]
        intro x hx hke
        exact hm (by rw [← (by simpa using hke : clusterKeyOf x = clusterKeyOf j)]; exact hcompl x hx)
      intro kv hkv
      have := insertGrouped_mem (buildGroupNames js) (clusterKeyOf j) j
        (fun key => js.filter (fun x => decide (clusterKeyOf x = key))) hnd hfib habs kv hkv
      rw [this, List.filter_append]
      congr 1
      by_cases he : clusterKeyOf j = kv.1
      · rw [if_pos he.symm]
        simp [he]
      · rw [if_neg (fun x => he x.symm)]
        simp [he]
    · intro x hx
      rw [insertGrouped_keys]
      rcases List.mem_append.mp hx with hx1 | hx2
      · by_cases hm : clusterKeyOf j ∈ (buildGroupNames js).map Prod.fst
        · rw [if_pos hm]
          exact hcompl x hx1
        · rw [if_neg hm]
          exact List.mem_append.mpr (Or.inl (hcompl x hx1))
      · have : x = j := by simpa using hx2
        subst this
        by_cases hm : clusterKeyOf x ∈ (buildGroupNames js).map Prod.fst
        · rw [if_pos hm]
          exact hm
        · rw [if_neg hm]
          simp

theorem find?_organizer :
    ∀ (pre : List Jumper) (org : Jumper) (post : List Jumper),
      (∀ m ∈ pre, m.isOrganizerOf = false) → org.isOrganizerOf = true →
      (pre ++ org :: post).find? (fun m => m.isOrganizerOf) = some org := by
  intro pre
  induction pre with
  | nil =>
    intro org post _ horg
    simp [List.find?_cons_of_pos, horg]
  | cons a rest ih =>
    intro org post hpre horg
    rw [List.cons_append, List.find?_cons_of_neg _ (by simp [hpre a (by simp)])]
    exact ih org post (fun m hm => hpre m (by simp [hm])) horg

theorem findIdx_organizer :
    ∀ (pre : List Jumper) (org : Jumper) (post : List Jumper),
      (∀ m ∈ pre, m.isOrganizerOf = false) → org.isOrganizerOf = true →
      (pre ++ org :: post).findIdx (fun m => m.isOrganizerOf) = pre.length := by
  intro pre
  induction pre with
  | nil =>
    intro org post _ horg
    simp [List.findIdx_cons, horg]
  | cons a rest ih =>
    intro org post hpre horg
    rw [List.cons_append, List.findIdx_cons]
    simp only [hpre a (by simp), cond_false]
    rw [ih org post (fun m hm => hpre m (by simp [hm])) horg]
    simp

theorem eraseIdx_middle :
    ∀ (pre : List Jumper) (org : Jumper) (post : List Jumper),
      (pre ++ org :: post).eraseIdx pre.length = pre ++ post := by
  intro pre
  induction pre with
  | nil => intro org post; rfl
  | cons a rest ih =>
    intro org post
    simp only [List.cons_append, List.length_cons, List.eraseIdx_cons_succ]
    rw [ih org post]

theorem foldl_AddGroupMember_plain :
    ∀ (others : List Jumper) (j : Jumper),
      j.jdataOf.isTandem = false → j.jdataOf.isStudent = false →
      others.foldl AddGroupMember j = .node j.jdataOf (j.membersOf ++ others) := by
  intro others
  induction others with
  | nil =>
    intro j _ _
    cases j
    simp [Jumper.jdataOf, Jumper.membersOf]
  | cons m rest ih =>
    intro j h1 h2
    simp only [List.foldl_cons]
    have hadd : AddGroupMember j m = .node j.jdataOf (j.membersOf ++ [m]) := by
      simp [AddGroupMember, h1, h2]
    rw [hadd, ih (.node j.jdataOf (j.membersOf ++ [m])) h1 h2]
    simp [Jumper.jdataOf, Jumper.membersOf]

theorem emitCluster_no_organizer (members : List Jumper)
    (h : ∀ m ∈ members, m.isOrganizerOf = false) :
    emitCluster members = members := by
  have hfind : members.find? (fun m => m.isOrganizerOf) = none :=
    List.find?_eq_none.mpr (fun m hm => by simp [h m hm])
  simp [emitCluster, hfind]

theorem emitCluster_organizer (pre post : List Jumper) (org : Jumper)
    (hpre : ∀ m ∈ pre, m.isOrganizerOf = false) (horg : org.isOrganizerOf = true)
    (h1 : org.jdataOf.isTandem = false) (h2 : org.jdataOf.isStudent = false) :
    emitCluster (pre ++ org :: post) =
      [Jumper.node org.jdataOf (sortJumpers (org.membersOf ++ (pre ++ post)))] := by
  simp only [emitCluster, find?_organizer pre org post hpre horg,
    findIdx_organizer pre org post hpre horg, eraseIdx_middle pre org post,
    foldl_AddGroupMember_plain (pre ++ post) org h1 h2]
  rfl

instance : IsTotal Jumper jumperNameLe :=
  ⟨fun a b => le_total (goToLower a.nameOf) (goToLower b.nameOf)⟩

instance : IsTrans Jumper jumperNameLe :=
  ⟨fun _ _ _ hab hbc => le_trans hab hbc⟩

theorem sortJumpers_sorted (l : List Jumper) :
    (sortJumpers l).Pairwise jumperNameLe :=
  List.sorted_insertionSort jumperNameLe l

theorem sortJumpers_perm (l : List Jumper) : (sortJumpers l).Perm l :=
  List.perm_insertionSort jumperNameLe l

/-- Claim C3: sport jumpers are clustered by a key equal to the group-name
field (itself the "-NN"-suffix-stripped `group_number` string, per
`jumperFromJSON` and `parseGroupName`), falling back to the jumper's own
name when the group name is empty; each cluster is exactly the fiber of
that key; a cluster with an organizer emits a single leader whose group
members are the organizer's existing members plus every other cluster
member, sorted case-insensitively by name; a cluster with no organizer
emits every member individually; and the parsed load publishes the
regrouped, sorted sport-jumper list. -/
theorem claim_C3 :
    (∀ j : Jumper, clusterKeyOf j = if j.groupNameOf = [] then j.nameOf else j.groupNameOf) ∧
    (∀ (m : List (GoStr × JVal)) (j : Jumper) (gn : GoStr),
      jumperFromJSON m = some j →
      asString (objField m "group_number".toList) = some gn →
      j.groupNameOf = parseGroupName gn) ∧
    (∀ s ds : GoStr, ds.all Char.isDigit = true →
      parseGroupName (s ++ '-' :: ds) = parseGroupName s) ∧
    (∀ js : List Jumper,
      ((buildGroupNames js).map Prod.fst).Nodup ∧
      (∀ kv ∈ buildGroupNames js,
        kv.2 = js.filter (fun x => decide (clusterKeyOf x = kv.1))) ∧
      (∀ x ∈ js, clusterKeyOf x ∈ (buildGroupNames js).map Prod.fst) ∧
      regroupSportJumpers js =
        (buildGroupNames js).foldl (fun acc kv => acc ++ emitCluster kv.2) []) ∧
    (∀ members : List Jumper, (∀ m ∈ members, m.isOrganizerOf = false) →
      emitCluster members = members) ∧
    (∀ (pre post : List Jumper) (org : Jumper),
      (∀ m ∈ pre, m.isOrganizerOf = false) → org.isOrganizerOf = true →
      org.jdataOf.isTandem = false → org.jdataOf.isStudent = false →
      emitCluster (pre ++ org :: post) =
        [Jumper.node org.jdataOf (sortJumpers (org.membersOf ++ (pre ++ post)))]) ∧
    (∀ l : List Jumper, (sortJumpers l).Pairwise jumperNameLe ∧ (sortJumpers l).Perm l) ∧
    (∀ (organizers : List GoStr) (raw : JVal) (l : Load),
      parseLoad organizers raw = some (some l) →
      ∃ loadData groups tandems students sports, ∃ pub priv : Int,
        asObj raw = some loadData ∧
        asArr (objField loadData "groups".toList) = some groups ∧
        parseGroups organizers [] [] [] 0 0 groups =
          some (tandems, students, sports, pub, priv) ∧
        l.sportJumpers = sortJumpers (regroupSportJumpers sports)) := by
  refine ⟨fun j => rfl, jumperFromJSON_groupName, parseGroupName_strip,
    fun js => ⟨(buildGroupNames_spec js).1, (buildGroupNames_spec js).2.1,
      (buildGroupNames_spec js).2.2, rfl⟩,
    emitCluster_no_organizer, emitCluster_organizer,
    fun l => ⟨sortJumpers_sorted l, sortJumpers_perm l⟩, ?_⟩
  intro organizers raw l h
  obtain ⟨loadData, groups, tandems, students, sports, pub, priv,
    h1, h2, h3, _, _, _, _, _, h9⟩ := parseLoad_inv organizers raw l h
  exact ⟨loadData, groups, tandems, students, sports, pub, priv, h1, h2, h3, h9⟩

/-- A sport organizer named Zed whose (stripped) group name is Smith. -/
def wOrgJumper : Jumper :=
  .node ⟨5, "Zed".toList, [], [], "Smith".toList, false, false, false, false, true,
    false, false⟩ []

theorem claim_C3_witness :
    parseGroupName ("Smith".toList ++ '-' :: "01".toList) = parseGroupName "Smith".toList ∧
      emitCluster ([] ++ wOrgJumper :: [aliceQ]) =
        [Jumper.node wOrgJumper.jdataOf
          (sortJumpers (wOrgJumper.membersOf ++ ([] ++ [aliceQ])))] :=
  ⟨claim_C3.2.2.1 "Smith".toList "01".toList (by decide),
   claim_C3.2.2.2.2.2.1 [] [aliceQ] wOrgJumper (by simp) rfl rfl rfl⟩

/-- Lexicographic order on (year, month, day) triples. -/
def dateLe (a b : Int × Int × Int) : Prop :=
  a.1 < b.1 ∨ (a.1 = b.1 ∧ (a.2.1 < b.2.1 ∨ (a.2.1 = b.2.1 ∧ a.2.2 ≤ b.2.2)))

instance (a b : Int × Int × Int) : Decidable (dateLe a b) :=
  inferInstanceAs (Decidable
    (a.1 < b.1 ∨ (a.1 = b.1 ∧ (a.2.1 < b.2.1 ∨ (a.2.1 = b.2.1 ∧ a.2.2 ≤ b.2.2)))))

theorem dateLe_refl (a : Int × Int × Int) : dateLe a a := by
  unfold dateLe
  omega

theorem dateLe_antisymm {a b : Int × Int × Int} (h1 : dateLe a b) (h2 : dateLe b a) :
    a = b := by
  obtain ⟨a1, a2, a3⟩ := a
  obtain ⟨b1, b2, b3⟩ := b
  unfold dateLe at h1 h2
  simp only [Prod.mk.injEq]
  simp only at h1 h2
  omega

instance : IsTrans (Int × Int × Int) dateLe :=
  ⟨by
    intro a b c h1 h2
    obtain ⟨a1, a2, a3⟩ := a
    obtain ⟨b1, b2, b3⟩ := b
    obtain ⟨c1, c2, c3⟩ := c
    unfold dateLe at h1 h2 ⊢
    simp only at h1 h2 ⊢
    omega⟩

theorem ssStep_lastSunset (s : SSState) (o : SSObs) :
    (ssStep s o).1.lastSunset =
      if o.sunset.abs ≤ o.now.abs ∧ s.lastSunset ≠ o.sunset.dateOf then o.sunset.dateOf
      else s.lastSunset := by
  simp only [ssStep]
  split_ifs <;> simp_all

theorem ssStep_mem_sunset (s : SSState) (o : SSObs) :
    SSEvent.sunsetFired ∈ (ssStep s o).2 ↔
      (o.sunset.abs ≤ o.now.abs ∧ s.lastSunset ≠ o.sunset.dateOf) := by
  simp only [ssStep]
  split_ifs <;> simp_all

theorem ssStep_lastSunrise (s : SSState) (o : SSObs) :
    (ssStep s o).1.lastSunrise =
      if o.sunrise.abs ≤ o.now.abs ∧ s.lastSunrise ≠ o.sunrise.dateOf then o.sunrise.dateOf
      else s.lastSunrise := by
  simp only [ssStep]
  split_ifs <;> simp_all

theorem ssStep_mem_sunrise (s : SSState) (o : SSObs) :
    SSEvent.sunriseFired ∈ (ssStep s o).2 ↔
      (o.sunrise.abs ≤ o.now.abs ∧ s.lastSunrise ≠ o.sunrise.dateOf) := by
  simp only [ssStep]
  split_ifs <;> simp_all

theorem ssStep_pre_state (s : SSState) (o : SSObs) :
    ((SSEvent.preSunset ∈ (ssStep s o).2 ∨ SSEvent.preSunrise ∈ (ssStep s o).2) →
      (ssStep s o).1.lastPre = o.now.hmOf ∧ s.lastPre ≠ o.now.hmOf) ∧
    (¬ (SSEvent.preSunset ∈ (ssStep s o).2 ∨ SSEvent.preSunrise ∈ (ssStep s o).2) →
      (ssStep s o).1.lastPre = s.lastPre) ∧
    ¬ (SSEvent.preSunset ∈ (ssStep s o).2 ∧ SSEvent.preSunrise ∈ (ssStep s o).2) := by
  simp only [ssStep]
  split_ifs <;> simp_all

theorem ssRun_append (l1 l2 : List SSObs) :
    ∀ s : SSState, ssRun s (l1 ++ l2) = ssRun (ssRun s l1) l2 := by
  induction l1 with
  | nil => intro s; rfl
  | cons o os ih =>
    intro s
    simp only [List.cons_append, ssRun]
    exact ih (ssStep s o).1

theorem ssStateAt_succ (trace : List SSObs) (k : Nat) (h : k < trace.length) :
    ssStateAt trace (k + 1) = (ssStep (ssStateAt trace k) (obsAt trace k)).1 := by
  unfold ssStateAt
  have htake : trace.take (k + 1) = trace.take k ++ [trace.get ⟨k, h⟩] := by
    rw [List.take_succ]
    congr 1
    simp [List.getElem?_eq_getElem h]
  rw [htake, ssRun_append]
  have hobs : obsAt trace k = trace.get ⟨k, h⟩ := by
    unfold obsAt
    rw [List.get?_eq_getElem? trace k, List.getElem?_eq_getElem h]
    rfl
  rw [hobs]
  rfl

theorem ssStateAt_stable (trace : List SSObs) (k : Nat) (h : trace.length ≤ k) :
    ssStateAt trace (k + 1) = ssStateAt trace k := by
  unfold ssStateAt
  rw [List.take_of_length_le h, List.take_of_length_le (by omega)]

theorem lastSunset_inv (trace : List SSObs) :
    ∀ k, ((ssStateAt trace k).lastSunset = (0, 0, 0) ∧
        ∀ j, j < k → ¬ ssFires trace j SSEvent.sunsetFired) ∨
      (∃ j, j < k ∧ ssFires trace j SSEvent.sunsetFired ∧
        (ssStateAt trace k).lastSunset = (obsAt trace j).sunset.dateOf ∧
        ∀ i, j < i → i < k → ¬ ssFires trace i SSEvent.sunsetFired) := by
  intro k
  induction k with
  | zero => exact Or.inl ⟨rfl, by omega⟩
  | succ k ih =>
    by_cases hlen : k < trace.length
    · by_cases hfk : ssFires trace k SSEvent.sunsetFired
      · right
        refine ⟨k, by omega, hfk, ?_, by omega⟩
        rw [ssStateAt_succ trace k hlen, ssStep_lastSunset]
        rw [if_pos ((ssStep_mem_sunset (ssStateAt trace k) (obsAt trace k)).mp hfk.2)]
      · have hc : ¬ ((obsAt trace k).sunset.abs ≤ (obsAt trace k).now.abs ∧
            (ssStateAt trace k).lastSunset ≠ (obsAt trace k).sunset.dateOf) := by
          intro hcon
          exact hfk ⟨hlen, (ssStep_mem_sunset _ _).mpr hcon⟩
        have hstate : (ssStateAt trace (k + 1)).lastSunset =
            (ssStateAt trace k).lastSunset := by
          rw [ssStateAt_succ trace k hlen, ssStep_lastSunset, if_neg hc]
        rcases ih with ⟨h1, h2⟩ | ⟨j, hj1, hj2, hj3, hj4⟩
        · left
          refine ⟨hstate.trans h1, ?_⟩
          intro j hj
          rcases Nat.lt_succ_iff_lt_or_eq.mp hj with hlt | rfl
          · exact h2 j hlt
          · exact hfk
        · right
          refine ⟨j, by omega, hj2, hstate.trans hj3, ?_⟩
          intro i hi1 hi2
          rcases Nat.lt_succ_iff_lt_or_eq.mp hi2 with hlt | rfl
          · exact hj4 i hi1 hlt
          · exact hfk
    · have hnf : ¬ ssFires trace k SSEvent.sunsetFired := fun hcon => hlen hcon.1
      have hstate : ssStateAt trace (k + 1) = ssStateAt trace k :=
        ssStateAt_stable trace k (by omega)
      rcases ih with ⟨h1, h2⟩ | ⟨j, hj1, hj2, hj3, hj4⟩
      · left
        refine ⟨by rw [hstate]; exact h1, ?_⟩
        intro j hj
        rcases Nat.lt_succ_iff_lt_or_eq.mp hj with hlt | rfl
        · exact h2 j hlt
        · exact hnf
      · right
        refine ⟨j, by omega, hj2, by rw [hstate]; exact hj3, ?_⟩
        intro i hi1 hi2
        rcases Nat.lt_succ_iff_lt_or_eq.mp hi2 with hlt | rfl
        · exact hj4 i hi1 hlt
        · exact hnf

theorem lastSunrise_inv (trace : List SSObs) :
    ∀ k, ((ssStateAt trace k).lastSunrise = (0, 0, 0) ∧
        ∀ j, j < k → ¬ ssFires trace j SSEvent.sunriseFired) ∨
      (∃ j, j < k ∧ ssFires trace j SSEvent.sunriseFired ∧
        (ssStateAt trace k).lastSunrise = (obsAt trace j).sunrise.dateOf ∧
        ∀ i, j < i → i < k → ¬ ssFires trace i SSEvent.sunriseFired) := by
  intro k
  induction k with
  | zero => exact Or.inl ⟨rfl, by omega⟩
  | succ k ih =>
    by_cases hlen : k < trace.length
    · by_cases hfk : ssFires trace k SSEvent.sunriseFired
      · right
        refine ⟨k, by omega, hfk, ?_, by omega⟩
        rw [ssStateAt_succ trace k hlen, ssStep_lastSunrise]
        rw [if_pos ((ssStep_mem_sunrise (ssStateAt trace k) (obsAt trace k)).mp hfk.2)]
      · have hc : ¬ ((obsAt trace k).sunrise.abs ≤ (obsAt trace k).now.abs ∧
            (ssStateAt trace k).lastSunrise ≠ (obsAt trace k).sunrise.dateOf) := by
          intro hcon
          exact hfk ⟨hlen, (ssStep_mem_sunrise _ _).mpr hcon⟩
        have hstate : (ssStateAt trace (k + 1)).lastSunrise =
            (ssStateAt trace k).lastSunrise := by
          rw [ssStateAt_succ trace k hlen, ssStep_lastSunrise, if_neg hc]
        rcases ih with ⟨h1, h2⟩ | ⟨j, hj1, hj2, hj3, hj4⟩
        · left
          refine ⟨hstate.trans h1, ?_⟩
          intro j hj
          rcases Nat.lt_succ_iff_lt_or_eq.mp hj with hlt | rfl
          · exact h2 j hlt
          · exact hfk
        · right
          refine ⟨j, by omega, hj2, hstate.trans hj3, ?_⟩
          intro i hi1 hi2
          rcases Nat.lt_succ_iff_lt_or_eq.mp hi2 with hlt | rfl
          · exact hj4 i hi1 hlt
          · exact hfk
    · have hnf : ¬ ssFires trace k SSEvent.sunriseFired := fun hcon => hlen hcon.1
      have hstate : ssStateAt trace (k + 1) = ssStateAt trace k :=
        ssStateAt_stable trace k (by omega)
      rcases ih with ⟨h1, h2⟩ | ⟨j, hj1, hj2, hj3, hj4⟩
      · left
        refine ⟨by rw [hstate]; exact h1, ?_⟩
        intro j hj
        rcases Nat.lt_succ_iff_lt_or_eq.mp hj with hlt | rfl
        · exact h2 j hlt
        · exact hnf
      · right
        refine ⟨j, by omega, hj2, by rw [hstate]; exact hj3, ?_⟩
        intro i hi1 hi2
        rcases Nat.lt_succ_iff_lt_or_eq.mp hi2 with hlt | rfl
        · exact hj4 i hi1 hlt
        · exact hnf

theorem lastPre_hold (trace : List SSObs) (k1 : Nat)
    (hf : ssFires trace k1 SSEvent.preSunset ∨ ssFires trace k1 SSEvent.preSunrise) :
    ∀ m, (∀ j, k1 < j → j < k1 + 1 + m →
        ¬ (ssFires trace j SSEvent.preSunset ∨ ssFires trace j SSEvent.preSunrise)) →
      (ssStateAt trace (k1 + 1 + m)).lastPre = (obsAt trace k1).now.hmOf := by
  intro m
  induction m with
  | zero =>
    intro _
    have hk : k1 < trace.length := hf.elim (fun h => h.1) (fun h => h.1)
    rw [show k1 + 1 + 0 = k1 + 1 from rfl, ssStateAt_succ trace k1 hk]
    refine ((ssStep_pre_state (ssStateAt trace k1) (obsAt trace k1)).1 ?_).1
    rcases hf with h | h
    · exact Or.inl h.2
    · exact Or.inr h.2
  | succ m ih =>
    intro hno
    have hprev := ih (fun j h1 h2 => hno j h1 (by omega))
    have hsucc : k1 + 1 + (m + 1) = (k1 + 1 + m) + 1 := by omega
    rw [hsucc]
    by_cases hlen : k1 + 1 + m < trace.length
    · rw [ssStateAt_succ trace (k1 + 1 + m) hlen]
      have hnp : ¬ (SSEvent.preSunset ∈
            (ssStep (ssStateAt trace (k1 + 1 + m)) (obsAt trace (k1 + 1 + m))).2 ∨
          SSEvent.preSunrise ∈
            (ssStep (ssStateAt trace (k1 + 1 + m)) (obsAt trace (k1 + 1 + m))).2) := by
        intro hcon
        refine hno (k1 + 1 + m) (by omega) (by omega) ?_
        rcases hcon with h | h
        · exact Or.inl ⟨hlen, h⟩
        · exact Or.inr ⟨hlen, h⟩
      rw [(ssStep_pre_state _ _).2.1 hnp]
      exact hprev
    · rw [ssStateAt_stable trace (k1 + 1 + m) (by omega)]
      exact hprev

/-- Claim C9: along any poller execution in which wall-clock dates are
monotone, each tick's sunrise/sunset instants fall on that tick's date, and
no date is the sentinel `(0,0,0)`: the sunset and the sunrise edge each
fire at most once per calendar date, and they do fire at any crossing tick
whose date has not fired before (so exactly once per day the poller runs
across the edge, even under repeated one-second polling); a single tick
never fires both pre-notifications (`lastPre` is shared), and two
successive pre-notifications always carry different (hour, minute) values,
so a pre-notification fires at most once per minute. -/
theorem claim_C9 :
    ∀ (tr : List SSObs),
      List.Chain' dateLe (tr.map (fun o => o.now.dateOf)) →
      (∀ o ∈ tr, o.sunset.dateOf = o.now.dateOf ∧ o.sunrise.dateOf = o.now.dateOf) →
      (∀ o ∈ tr, o.now.dateOf ≠ (0, 0, 0)) →
      (∀ k1 k2, k1 < k2 → ssFires tr k1 SSEvent.sunsetFired →
        ssFires tr k2 SSEvent.sunsetFired →
        (obsAt tr k1).now.dateOf ≠ (obsAt tr k2).now.dateOf) ∧
      (∀ k1 k2, k1 < k2 → ssFires tr k1 SSEvent.sunriseFired →
        ssFires tr k2 SSEvent.sunriseFired →
        (obsAt tr k1).now.dateOf ≠ (obsAt tr k2).now.dateOf) ∧
      (∀ k, k < tr.length → (obsAt tr k).sunset.abs ≤ (obsAt tr k).now.abs →
        (∀ j, j < k → ssFires tr j SSEvent.sunsetFired →
          (obsAt tr j).now.dateOf ≠ (obsAt tr k).now.dateOf) →
        ssFires tr k SSEvent.sunsetFired) ∧
      (∀ k, k < tr.length → (obsAt tr k).sunrise.abs ≤ (obsAt tr k).now.abs →
        (∀ j, j < k → ssFires tr j SSEvent.sunriseFired →
          (obsAt tr j).now.dateOf ≠ (obsAt tr k).now.dateOf) →
        ssFires tr k SSEvent.sunriseFired) ∧
      (∀ k, ¬ (ssFires tr k SSEvent.preSunset ∧ ssFires tr k SSEvent.preSunrise)) ∧
      (∀ k1 k2, k1 < k2 →
        (ssFires tr k1 SSEvent.preSunset ∨ ssFires tr k1 SSEvent.preSunrise) →
        (ssFires tr k2 SSEvent.preSunset ∨ ssFires tr k2 SSEvent.preSunrise) →
        (∀ j, k1 < j → j < k2 →
          ¬ (ssFires tr j SSEvent.preSunset ∨ ssFires tr j SSEvent.preSunrise)) →
        (obsAt tr k1).now.hmOf ≠ (obsAt tr k2).now.hmOf) := by
  intro tr hchain htie hnz
  have hobs : ∀ (i : Nat) (h : i < tr.length), obsAt tr i = tr[i] := by
    intro i h
    unfold obsAt
    rw [List.get?_eq_getElem? tr i, List.getElem?_eq_getElem h]
    rfl
  have hpair : List.Pairwise dateLe (tr.map (fun o => o.now.dateOf)) :=
    List.chain'_iff_pairwise.mp hchain
  have hmono : ∀ i j, i < j → j < tr.length →
      dateLe (obsAt tr i).now.dateOf (obsAt tr j).now.dateOf := by
    intro i j hij hj
    have hi : i < tr.length := by omega
    have hp := List.pairwise_iff_getElem.mp hpair i j (by simpa using hi)
      (by simpa using hj) hij
    rw [hobs i hi, hobs j hj]
    simpa using hp
  have htie2 : ∀ (k : Nat), k < tr.length →
      (obsAt tr k).sunset.dateOf = (obsAt tr k).now.dateOf ∧
      (obsAt tr k).sunrise.dateOf = (obsAt tr k).now.dateOf := by
    intro k h
    rw [hobs k h]
    exact htie tr[k] (by simp)
  have hnz2 : ∀ (k : Nat), k < tr.length → (obsAt tr k).now.dateOf ≠ (0, 0, 0) := by
    intro k h
    rw [hobs k h]
    exact hnz tr[k] (by simp)
  refine ⟨?_, ?_, ?_, ?_, ?_, ?_⟩
  · intro k1 k2 h12 hf1 hf2 heq
    have hk2len : k2 < tr.length := hf2.1
    have hcond2 := (ssStep_mem_sunset (ssStateAt tr k2) (obsAt tr k2)).mp hf2.2
    rcases lastSunset_inv tr k2 with ⟨_, hnone⟩ | ⟨j, hj1, hj2, hj3, hj4⟩
    · exact hnone k1 h12 hf1
    · have hk1j : k1 ≤ j := by
        by_contra hc
        exact hj4 k1 (by omega) h12 hf1
      have hjlen : j < tr.length := hj2.1
      have hmono1 : dateLe (obsAt tr k1).now.dateOf (obsAt tr j).now.dateOf := by
        rcases Nat.eq_or_lt_of_le hk1j with rfl | hlt
        · exact dateLe_refl _
        · exact hmono k1 j hlt hjlen
      have hmono2 : dateLe (obsAt tr j).now.dateOf (obsAt tr k2).now.dateOf :=
        hmono j k2 hj1 hk2len
      rw [heq] at hmono1
      have hdj : (obsAt tr j).now.dateOf = (obsAt tr k2).now.dateOf :=
        dateLe_antisymm hmono2 hmono1
      apply hcond2.2
      rw [hj3, (htie2 j hjlen).1, hdj, (htie2 k2 hk2len).1]
  · intro k1 k2 h12 hf1 hf2 heq
    have hk2len : k2 < tr.length := hf2.1
    have hcond2 := (ssStep_mem_sunrise (ssStateAt tr k2) (obsAt tr k2)).mp hf2.2
    rcases lastSunrise_inv tr k2 with ⟨_, hnone⟩ | ⟨j, hj1, hj2, hj3, hj4⟩
    · exact hnone k1 h12 hf1
    · have hk1j : k1 ≤ j := by
        by_contra hc
        exact hj4 k1 (by omega) h12 hf1
      have hjlen : j < tr.length := hj2.1
      have hmono1 : dateLe (obsAt tr k1).now.dateOf (obsAt tr j).now.dateOf := by
        rcases Nat.eq_or_lt_of_le hk1j with rfl | hlt
        · exact dateLe_refl _
        · exact hmono k1 j hlt hjlen
      have hmono2 : dateLe (obsAt tr j).now.dateOf (obsAt tr k2).now.dateOf :=
        hmono j k2 hj1 hk2len
      rw [heq] at hmono1
      have hdj : (obsAt tr j).now.dateOf = (obsAt tr k2).now.dateOf :=
        dateLe_antisymm hmono2 hmono1
      apply hcond2.2
      rw [hj3, (htie2 j hjlen).2, hdj, (htie2 k2 hk2len).2]
  · intro k hk hcross hnoprior
    refine ⟨hk, (ssStep_mem_sunset _ _).mpr ⟨hcross, ?_⟩⟩
    rcases lastSunset_inv tr k with ⟨hzero, _⟩ | ⟨j, hj1, hj2, hj3, _⟩
    · rw [hzero, (htie2 k hk).1]
      exact (hnz2 k hk).symm
    · rw [hj3, (htie2 j hj2.1).1, (htie2 k hk).1]
      exact hnoprior j hj1 hj2
  · intro k hk hcross hnoprior
    refine ⟨hk, (ssStep_mem_sunrise _ _).mpr ⟨hcross, ?_⟩⟩
    rcases lastSunrise_inv tr k with ⟨hzero, _⟩ | ⟨j, hj1, hj2, hj3, _⟩
    · rw [hzero, (htie2 k hk).2]
      exact (hnz2 k hk).symm
    · rw [hj3, (htie2 j hj2.1).2, (htie2 k hk).2]
      exact hnoprior j hj1 hj2
  · intro k hcon
    exact (ssStep_pre_state (ssStateAt tr k) (obsAt tr k)).2.2 ⟨hcon.1.2, hcon.2.2⟩
  · intro k1 k2 h12 hf1 hf2 hbet heq
    have hke : k1 + 1 + (k2 - k1 - 1) = k2 := by omega
    have hhold := lastPre_hold tr k1 hf1 (k2 - k1 - 1)
      (fun j hj1 hj2 => hbet j hj1 (by omega))
    rw [hke] at hhold
    have hmem : SSEvent.preSunset ∈ (ssStep (ssStateAt tr k2) (obsAt tr k2)).2 ∨
        SSEvent.preSunrise ∈ (ssStep (ssStateAt tr k2) (obsAt tr k2)).2 := by
      rcases hf2 with h | h
      · exact Or.inl h.2
      · exact Or.inr h.2
    have hne := ((ssStep_pre_state (ssStateAt tr k2) (obsAt tr k2)).1 hmem).2
    rw [hhold, heq] at hne
    exact hne rfl

/-- A tick at the sunset instant of 2021-06-01. -/
def wSSObs1 : SSObs :=
  ⟨⟨1000, 2021, 6, 1, 19, 59⟩, ⟨500, 2021, 6, 1, 5, 30⟩, ⟨1000, 2021, 6, 1, 19, 59⟩⟩

/-- The next one-second tick on the same date. -/
def wSSObs2 : SSObs :=
  ⟨⟨1001, 2021, 6, 1, 20, 0⟩, ⟨500, 2021, 6, 1, 5, 30⟩, ⟨1000, 2021, 6, 1, 19, 59⟩⟩

def wSSTrace : List SSObs := [wSSObs1, wSSObs2]

theorem claim_C9_witness :
    (∀ k1 k2, k1 < k2 → ssFires wSSTrace k1 SSEvent.sunsetFired →
      ssFires wSSTrace k2 SSEvent.sunsetFired →
      (obsAt wSSTrace k1).now.dateOf ≠ (obsAt wSSTrace k2).now.dateOf) ∧
    (∀ k1 k2, k1 < k2 → ssFires wSSTrace k1 SSEvent.sunriseFired →
      ssFires wSSTrace k2 SSEvent.sunriseFired →
      (obsAt wSSTrace k1).now.dateOf ≠ (obsAt wSSTrace k2).now.dateOf) ∧
    (∀ k, k < wSSTrace.length →
      (obsAt wSSTrace k).sunset.abs ≤ (obsAt wSSTrace k).now.abs →
      (∀ j, j < k → ssFires wSSTrace j SSEvent.sunsetFired →
        (obsAt wSSTrace j).now.dateOf ≠ (obsAt wSSTrace k).now.dateOf) →
      ssFires wSSTrace k SSEvent.sunsetFired) ∧
    (∀ k, k < wSSTrace.length →
      (obsAt wSSTrace k).sunrise.abs ≤ (obsAt wSSTrace k).now.abs →
      (∀ j, j < k → ssFires wSSTrace j SSEvent.sunriseFired →
        (obsAt wSSTrace j).now.dateOf ≠ (obsAt wSSTrace k).now.dateOf) →
      ssFires wSSTrace k SSEvent.sunriseFired) ∧
    (∀ k, ¬ (ssFires wSSTrace k SSEvent.preSunset ∧ ssFires wSSTrace k SSEvent.preSunrise)) ∧
    (∀ k1 k2, k1 < k2 →
      (ssFires wSSTrace k1 SSEvent.preSunset ∨ ssFires wSSTrace k1 SSEvent.preSunrise) →
      (ssFires wSSTrace k2 SSEvent.preSunset ∨ ssFires wSSTrace k2 SSEvent.preSunrise) →
      (∀ j, k1 < j → j < k2 →
        ¬ (ssFires wSSTrace j SSEvent.preSunset ∨ ssFires wSSTrace j SSEvent.preSunrise)) →
      (obsAt wSSTrace k1).now.hmOf ≠ (obsAt wSSTrace k2).now.hmOf) :=
  claim_C9 wSSTrace (List.Chain.cons (by decide) List.Chain.nil) (by decide) (by decide)
